import Mathlib

/-!
Verification of the core naming-inference, validation and rename-planning engine
of the VeinCodecScanner VCS Helper repository (file `NameChangerMP4.py`).

The Python functions are shallowly embedded as executable Lean definitions over
`String` / `List Char`.  Regular-expression searches are embedded as explicit
character-list matchers; each concrete pattern of the source is deterministic
after maximal munch (the character classes separating the pieces are disjoint),
so the matchers below implement exactly Python's leftmost-match semantics for
those patterns.  Character classes (`\s`, `\w`, `\d`) are modelled over their
ASCII content; `os.path` basename/splitext/dirname/join are modelled for POSIX
separators, and `os.path.abspath` is modelled as the identity (the application
only ever passes absolute, already-normalised paths coming from the folder
chooser).  The live file system is modelled as the finite list of existing
paths, and `os.rename` as removing the source and adding the target.
-/

/-! ### Character classes (ASCII content of the regex classes used) -/

/-- ASCII whitespace, the content of `\s` and of `str.strip()`. -/
def isSpaceB (c : Char) : Bool :=
  c == ' ' || c == '\t' || c == '\n' || c == '\x0b' || c == '\x0c' || c == '\r'

/-- ASCII decimal digit, the content of `\d`. -/
def isDigitB (c : Char) : Bool := '0' ≤ c && c ≤ '9'

/-- ASCII word character, the content of `\w`. -/
def isWordB (c : Char) : Bool := c.isAlphanum || c == '_'

/-- The separator class `[ ._-]` used between season and episode markers. -/
def isSepB (c : Char) : Bool := c == ' ' || c == '.' || c == '_' || c == '-'

/-- Numeric value of a list of ASCII digits (what Python's `int()` computes). -/
def natVal (l : List Char) : Nat :=
  l.foldl (fun a c => 10 * a + (c.toNat - '0'.toNat)) 0

/-- Greedy match of `\d{1,2}`: the (possibly empty) list of up to two leading
digits, and the remainder. -/
def take12 : List Char → List Char × List Char
  | [] => ([], [])
  | c :: r =>
    if isDigitB c then
      match r with
      | c2 :: r2 => if isDigitB c2 then ([c, c2], r2) else ([c], r)
      | [] => ([c], [])
    else ([], c :: r)

/-- Greedy match of `\d+`: all leading digits and the remainder. -/
def takeDigits : List Char → List Char × List Char
  | [] => ([], [])
  | c :: r =>
    if isDigitB c then
      let (d, rest) := takeDigits r
      (c :: d, rest)
    else ([], c :: r)

/-! ### Decimal rendering (Python `str(n)` / `f-string` formatting) -/

/-- Decimal digits of `n`, most significant first; fuel-based so that it is
structurally recursive and kernel-reducible. -/
def pyNatAux : Nat → Nat → List Char
  | 0, _ => []
  | fuel + 1, n => if n = 0 then [] else pyNatAux fuel (n / 10) ++ [Nat.digitChar (n % 10)]

/-- Python `str(n)` for a natural number. -/
def pyNat (n : Nat) : String :=
  if n = 0 then "0" else ⟨pyNatAux (n + 1) n⟩

/-- Python `f-string` formatting `f"{n:02d}"` for a natural number: zero-pad to
two digits, longer values rendered in full. -/
def pad2 (n : Nat) : String :=
  if n < 10 then "0" ++ pyNat n else pyNat n

/-! ### `os.path` helpers (POSIX) -/

/-- `os.path.basename`: the part after the last `/`. -/
def pyBasename (s : String) : String :=
  ⟨(s.data.reverse.takeWhile (fun c => c ≠ '/')).reverse⟩

/-- Split a character list into the directory part (up to and including the
last `/`) and the basename. -/
def sepSplit (l : List Char) : List Char × List Char :=
  let bn := (l.reverse.takeWhile (fun c => c ≠ '/')).reverse
  (l.take (l.length - bn.length), bn)

/-- Split a basename into root and extension like `posixpath.splitext`: the
extension starts at the last dot, provided some non-dot character precedes it
(so `.bashrc` has no extension). -/
def extSplit (bn : List Char) : List Char × List Char :=
  let revExt := bn.reverse.takeWhile (fun c => c ≠ '.')
  if revExt.length = bn.length then (bn, [])
  else
    let root := bn.take (bn.length - revExt.length - 1)
    if root.any (fun c => c ≠ '.') then (root, bn.drop root.length)
    else (bn, [])

/-- `os.path.splitext` on a full path: the extension is computed on the
basename only. -/
def pySplitext (s : String) : String × String :=
  let (dir, bn) := sepSplit s.data
  let (root, e) := extSplit bn
  (⟨dir ++ root⟩, ⟨e⟩)

/-- `os.path.dirname`: directory part with trailing slashes stripped (kept when
the whole directory part consists of slashes, as for `/name`). -/
def dirnameOf (path : String) : String :=
  let d := (sepSplit path.data).1
  if d.all (fun c => c = '/') then ⟨d⟩
  else ⟨(d.reverse.dropWhile (fun c => c = '/')).reverse⟩

/-- `os.path.join` for a directory and a (relative) file name. -/
def joinPath (d n : String) : String :=
  if d = "" then n
  else if d.data.getLast? = some '/' then d ++ n
  else d ++ "/" ++ n

/-- ASCII lower-casing of a string (`str.lower()` on the extensions that occur
here). -/
def lowerStr (s : String) : String := ⟨s.data.map Char.toLower⟩

/-! ### Token normalizer: `normalize_show_name` (lines 24-40)

Each of the three `re.sub(r'CLASS+', '.', s)` calls replaces every maximal
nonempty run of class characters by a single dot; `subRunsAux` implements that
with an "inside a run" flag. -/

/-- Replace every maximal run of `p`-characters by a single `'.'`; the flag
records whether the previous character was part of a run. -/
def subRunsAux (p : Char → Bool) : Bool → List Char → List Char
  | _, [] => []
  | inRun, c :: cs =>
    if p c then
      if inRun then subRunsAux p true cs
      else '.' :: subRunsAux p true cs
    else c :: subRunsAux p false cs

/-- Drop `p`-characters from both ends of a list (`str.strip`). -/
def stripBoth (p : Char → Bool) (l : List Char) : List Char :=
  ((l.dropWhile p).reverse.dropWhile p).reverse

/-- The class `[\s_]` of the first substitution. -/
def isSpUnd (c : Char) : Bool := isSpaceB c || c == '_'

/-- The class `[^\w.]` of the second substitution. -/
def notWordDot (c : Char) : Bool := !(isWordB c || c == '.')

/-- The class `\.` of the third substitution. -/
def isDotB (c : Char) : Bool := c == '.'

/-- Two adjacent characters are not both dots (the "no repeated dots"
invariant). -/
def noDots (a b : Char) : Prop := ¬(a = '.' ∧ b = '.')

/-- The three substitutions of lines 35-39 followed by `strip('.')`
(line 40). -/
def normCore (r : List Char) : List Char :=
  stripBoth isDotB
    (subRunsAux isDotB false (subRunsAux notWordDot false (subRunsAux isSpUnd false r)))

/-- `normalize_show_name` (NameChangerMP4.py lines 24-40). -/
def normalize_show_name (raw : String) : String :=
  let r := stripBoth isSpaceB raw.data
  if r = [] then "" else ⟨normCore r⟩

/-! ### Episode extractor: `extract_episode_number` (lines 108-161) -/

/-- Match `[sS](\d{1,2})[ ._-]*[eE](\d{1,2})` anchored at the head of the list,
returning both captured numbers.  The greedy pieces are deterministic: after
one digit the only way to continue past a second digit fails, and the separator
class is disjoint from `[eE]`. -/
def seAt : List Char → Option (Nat × Nat)
  | [] => none
  | c :: r =>
    if c = 's' ∨ c = 'S' then
      if (take12 r).1 = [] then none
      else
        match ((take12 r).2).dropWhile isSepB with
        | [] => none
        | e :: r3 =>
          if e = 'e' ∨ e = 'E' then
            if (take12 r3).1 = [] then none
            else some (natVal (take12 r).1, natVal (take12 r3).1)
          else none
    else none

/-- `re.search` of pattern 1 (`SxxEyy` anywhere): leftmost anchored match. -/
def seSearch : List Char → Option (Nat × Nat)
  | [] => none
  | c :: r =>
    match seAt (c :: r) with
    | some v => some v
    | none => seSearch r

/-- A word boundary lies before the head of the remainder (used for the
trailing `\b` of patterns 2 and 3). -/
def boundaryB : List Char → Bool
  | [] => true
  | h :: _ => !isWordB h

/-- Match `\b(\d{1,2})[xX](\d{1,2})\b` anchored here; `prev` is the character
just before this position (`none` at the start of the string). -/
def x12At (prev : Option Char) (l : List Char) : Option Nat :=
  if (match prev with | none => true | some q => !isWordB q) then
    if (take12 l).1 = [] then none
    else
      match (take12 l).2 with
      | [] => none
      | x :: r2 =>
        if x = 'x' ∨ x = 'X' then
          if (take12 r2).1 = [] then none
          else if boundaryB (take12 r2).2 then some (natVal (take12 r2).1) else none
        else none
  else none

/-- `re.search` of pattern 2, scanning left to right while tracking the
previous character. -/
def x12Search : Option Char → List Char → Option Nat
  | _, [] => none
  | prev, c :: r =>
    match x12At prev (c :: r) with
    | some n => some n
    | none => x12Search (some c) r

/-- Tail of pattern 3 after the optional pieces: `(\d{1,2})\b`. -/
def p3Digits (l : List Char) : Option Nat :=
  if (take12 l).1 = [] then none
  else if boundaryB (take12 l).2 then some (natVal (take12 l).1) else none

/-- Pattern 3 after `[eE][pP]?`: the optional separator `[ ._-]?`.  Skipping a
present separator cannot help (a separator is not a digit), so greedy use of it
is deterministic. -/
def p3Sep : List Char → Option Nat
  | [] => none
  | c :: r => if isSepB c then p3Digits r else p3Digits (c :: r)

/-- Pattern 3 after `[eE]`: the optional `[pP]?`.  Skipping a present `p`
cannot help (a `p` is neither separator nor digit). -/
def p3P : List Char → Option Nat
  | [] => none
  | c :: r => if c = 'p' ∨ c = 'P' then p3Sep r else p3Sep (c :: r)

/-- Match `[eE][pP]?[ ._-]?(\d{1,2})\b` anchored at the head of the list.
Note the source regex (line 138) has no leading `\b`. -/
def p3At : List Char → Option Nat
  | [] => none
  | c :: r => if c = 'e' ∨ c = 'E' then p3P r else none

/-- `re.search` of pattern 3: leftmost anchored match. -/
def p3Search : List Char → Option Nat
  | [] => none
  | c :: r =>
    match p3At (c :: r) with
    | some n => some n
    | none => p3Search r

/-- Pattern 4, `re.match(r'\s*(\d+)')`: digits at the very start, after
optional whitespace. -/
def p4Match (l : List Char) : Option Nat :=
  if (takeDigits (l.dropWhile isSpaceB)).1 = [] then none
  else some (natVal (takeDigits (l.dropWhile isSpaceB)).1)

/-- Collect the maximal digit runs of a list; `cur` holds the digits of the
current run in reverse. -/
def runsAux : List Char → List Char → List (List Char)
  | cur, [] => if cur = [] then [] else [cur.reverse]
  | cur, c :: r =>
    if isDigitB c then runsAux (c :: cur) r
    else if cur = [] then runsAux [] r else cur.reverse :: runsAux [] r

/-- Greedy non-overlapping `\d{1,2}` chunks of one digit run: pairs, with a
final single leftover digit. -/
def chunk12 : List Char → List Nat
  | [] => []
  | [a] => [natVal [a]]
  | a :: b :: r => natVal [a, b] :: chunk12 r

/-- Pattern 5, `re.findall(r'(\d{1,2})')`: all non-overlapping greedy matches
of one-or-two-digit groups, left to right — within each maximal digit run,
pairs of digits followed by a possible leftover digit. -/
def findall12 (l : List Char) : List Nat := ((runsAux [] l).map chunk12).flatten

/-- The base name the extractor works on:
`os.path.splitext(os.path.basename(filename))[0]` (line 119). -/
def epBase (filename : String) : String :=
  (pySplitext (pyBasename filename)).1

/-- `extract_episode_number` (NameChangerMP4.py lines 108-161): the ordered
five-rule cascade, first match wins. -/
def extract_episode_number (filename : String) : Option Nat :=
  let base := epBase filename
  match seSearch base.data with
  | some se => some se.2
  | none =>
    match x12Search none base.data with
    | some n => some n
    | none =>
      match p3Search base.data with
      | some n => some n
      | none =>
        match p4Match base.data with
        | some n => some n
        | none => (findall12 base.data).getLast?

/-! ### Season inference (lines 71-105 and 164-176) -/

/-- After a literal `season`, `[^\d]*(\d+)`: skip to the first digit (the
greedy non-digit star is deterministic because backtracking into it still
leaves a non-digit where a digit is required) and take the digit run. -/
def afterSeasonDigits (l : List Char) : Option Nat :=
  if (takeDigits (l.dropWhile (fun c => !isDigitB c))).1 = [] then none
  else some (natVal (takeDigits (l.dropWhile (fun c => !isDigitB c))).1)

/-- Match `[sS]eason[^\d]*(\d+)` anchored at the head of the list. -/
def seasonAAt : List Char → Option Nat
  | c1 :: c2 :: c3 :: c4 :: c5 :: c6 :: rest =>
    if (c1 = 's' ∨ c1 = 'S') ∧ c2 = 'e' ∧ c3 = 'a' ∧ c4 = 's' ∧ c5 = 'o' ∧ c6 = 'n' then
      afterSeasonDigits rest
    else none
  | _ => none

/-- `re.search` of the `[sS]eason[^\d]*(\d+)` pattern. -/
def seasonASearch : List Char → Option Nat
  | [] => none
  | c :: r =>
    match seasonAAt (c :: r) with
    | some n => some n
    | none => seasonASearch r

/-- Match `[sS](\d{1,2})` anchored at the head of the list. -/
def sDigitsAt : List Char → Option Nat
  | [] => none
  | c :: r =>
    if c = 's' ∨ c = 'S' then
      if (take12 r).1 = [] then none else some (natVal (take12 r).1)
    else none

/-- `re.search` of the `[sS](\d{1,2})` pattern. -/
def sSearch12 : List Char → Option Nat
  | [] => none
  | c :: r =>
    match sDigitsAt (c :: r) with
    | some n => some n
    | none => sSearch12 r

/-- `re.findall(r'(\d+)')`: the maximal digit runs of the list, left to
right. -/
def findallRuns (l : List Char) : List Nat := (runsAux [] l).map natVal

/-- `extract_season_number_from_folder` (NameChangerMP4.py lines 71-105). -/
def extract_season_number_from_folder (folder_path : String) : Nat :=
  let name := pyBasename folder_path
  match seasonASearch name.data with
  | some n => max 1 n
  | none =>
    match sSearch12 name.data with
    | some n => max 1 n
    | none =>
      match (findallRuns name.data).getLast? with
      | some n => max 1 n
      | none => 1

/-- `guess_season_from_files` (NameChangerMP4.py lines 164-176): the season
component of the first file whose base name matches pattern 1, floored at 1. -/
def guess_season_from_files : List String → Option Nat
  | [] => none
  | path :: rest =>
    match seSearch (epBase path).data with
    | some se => some (max 1 se.1)
    | none => guess_season_from_files rest

/-! ### Episode set validator: `build_and_verify_episodes` (lines 179-228) -/

/-- The `(ep, path)` pairs collected by the loop of lines 189-194, in input
order. -/
def itemsOf (paths : List String) : List (Nat × String) :=
  paths.filterMap (fun p => (extract_episode_number p).map (fun e => (e, p)))

/-- The basenames of the files whose episode extraction failed, in input
order. -/
def unparsedOf (paths : List String) : List String :=
  (paths.filter (fun p => (extract_episode_number p).isNone)).map pyBasename

/-- `"\n".join` and friends. -/
def joinStr (sep : String) : List String → String
  | [] => ""
  | x :: xs => xs.foldl (fun a b => a ++ sep ++ b) x

/-- The error message of lines 197-200. -/
def unparsedMsg (names : List String) : String :=
  "These files could not be parsed for an episode number:\n" ++ joinStr "\n" names

/-- The error message of lines 208-211. -/
def dupMsg (ns : List Nat) : String :=
  "Duplicate episode numbers found (fix manually before renaming):\n"
    ++ joinStr ", " (ns.map pad2)

/-- The error message of lines 221-224. -/
def missingMsg (ns : List Nat) : String :=
  "Missing episode numbers in sequence (fix manually before renaming):\n"
    ++ joinStr ", " (ns.map pad2)

/-- Result of `build_and_verify_episodes`: the Python function returns either
`(sorted_items, None)` or `(None, message)`; on an empty input it raises an
uncaught `IndexError` at `sorted_nums[0]` (line 215), modelled by `exn`. -/
inductive BVOut where
  | ok : List (Nat × String) → BVOut
  | err : String → BVOut
  | exn : BVOut
deriving DecidableEq

/-- The key order used by `sorted(items, key=lambda t: t[0])`. -/
def fstLe (a b : Nat × String) : Prop := a.1 ≤ b.1

instance : DecidableRel fstLe := fun a b => inferInstanceAs (Decidable (a.1 ≤ b.1))

instance : IsTotal (Nat × String) fstLe := ⟨fun a b => Nat.le_total a.1 b.1⟩

instance : IsTrans (Nat × String) fstLe := ⟨fun _ _ _ => Nat.le_trans⟩

/-- `build_and_verify_episodes` (NameChangerMP4.py lines 179-228).  `sorted`
of a Python set of naturals is its strictly increasing enumeration, modelled
with `dedup` plus `insertionSort`; the gap list `sorted(expected - unique)` is
the ascending range filtered to the absent values. -/
def numsOf (paths : List String) : List Nat := (itemsOf paths).map Prod.fst

def build_and_verify_episodes (paths : List String) : BVOut :=
  let unparsed := unparsedOf paths
  if unparsed ≠ [] then .err (unparsedMsg unparsed)
  else
    let nums := numsOf paths
    let dups := List.insertionSort (· ≤ ·) (nums.dedup.filter (fun n => 2 ≤ nums.count n))
    if dups ≠ [] then .err (dupMsg dups)
    else
      match List.insertionSort (· ≤ ·) nums.dedup with
      | [] => .exn
      | f :: rest =>
        let lastN := rest.getLastD f
        let missing := (List.range' f (lastN + 1 - f)).filter (fun k => nums.count k = 0)
        if missing ≠ [] then .err (missingMsg missing)
        else .ok (List.insertionSort fstLe (itemsOf paths))

/-! ### Multi-season orchestrator: `App.build_multi_tv_preview` (lines 487-561)

Only the plan/error logic is modelled; preview-box text and the show-name entry
are GUI side effects that do not influence the exposed plan. -/

/-- Season for one subfolder (lines 507-511): folder heuristic, overridden by
the first `SxxEyy` filename when present. -/
def seasonFor (season_folder : String) (videos : List String) : Nat :=
  let season := extract_season_number_from_folder season_folder
  match guess_season_from_files videos with
  | some s => s
  | none => season

/-- Result of the orchestrator: the exposed `multi_items` plan (set to `none`
when some season failed), the recorded error labels, and whether the Rename
button is enabled. -/
structure MultiOut where
  multi_items : Option (List (Nat × Nat × String))
  errors : List String
  renameEnabled : Bool
deriving DecidableEq

/-- The loop of lines 506-534: per season folder, validate and either append
the season-tagged items or record a labelled error.  An uncaught `IndexError`
from the validator aborts the whole call (`Except.error`). -/
def multiLoop : List (String × List String) → Except Unit (List (Nat × Nat × String) × List String)
  | [] => .ok ([], [])
  | (sf, vids) :: rest =>
    let season := seasonFor sf vids
    match build_and_verify_episodes vids with
    | .exn => .error ()
    | .err e =>
      match multiLoop rest with
      | .error u => .error u
      | .ok (its, errs) =>
        .ok (its, ("[" ++ pyBasename sf ++ " (Season " ++ pad2 season ++ ")]\n" ++ e) :: errs)
    | .ok items =>
      match multiLoop rest with
      | .error u => .error u
      | .ok (its, errs) =>
        .ok (items.map (fun it => (season, it.1, it.2)) ++ its, errs)

/-- `App.build_multi_tv_preview` (lines 487-561): `none` models an uncaught
exception; otherwise lines 536-561 decide what is exposed. -/
def build_multi_tv_preview (season_folders : List (String × List String)) : Option MultiOut :=
  match multiLoop season_folders with
  | .error _ => none
  | .ok (items, errors) =>
    if errors ≠ [] then some ⟨none, errors, false⟩
    else if items = [] then some ⟨some [], errors, false⟩
    else some ⟨some items, errors, true⟩

/-- Whether a validator result is a success. -/
def isOkB : BVOut → Bool
  | .ok _ => true
  | _ => false

/-- Whether a validator result is a (reported) validation error. -/
def isErrB : BVOut → Bool
  | .err _ => true
  | _ => false

/-- The items of a successful validator result. -/
def okItems : BVOut → List (Nat × String)
  | .ok l => l
  | _ => []

/-! ### Rename engine: `App.rename_files`, single-season TV branch
(lines 684-741).  The multi-season and movie branches use the same
identity-skip and suffix-retry logic. -/

/-- The collision loop of lines 718-727: starting from the plain target, step
through `_1`, `_2`, ... suffixed candidates while the current candidate exists.
The Python `while` is unbounded; `fs.length + 1` steps are proven sufficient
below, so the fuelled loop computes the same result. -/
def collisionLoop (fs : List String) (mk : Nat → String) : Nat → String → Nat → Option String
  | 0, _, _ => none
  | fuel + 1, cand, k =>
    if cand ∈ fs then collisionLoop fs mk fuel (mk k) (k + 1)
    else some cand

/-- The base name stem of lines 708-711 (target name without the extension). -/
def nameStemOf (showName seasonStr : String) (ep : Nat) : String :=
  if showName ≠ "" then showName ++ ".s" ++ seasonStr ++ ".e" ++ pad2 ep
  else "s" ++ seasonStr ++ "e" ++ pad2 ep

/-- The extension of lines 706: lower-cased source extension, defaulting to
`.mp4`. -/
def extOf (path : String) : String :=
  let e := lowerStr (pySplitext path).2
  if e = "" then ".mp4" else e

/-- The computed target `new_path` of line 713. -/
def targetOf (showName seasonStr : String) (ep : Nat) (old : String) : String :=
  joinPath (dirnameOf old) (nameStemOf showName seasonStr ep ++ extOf old)

/-- One iteration of the rename loop (lines 704-730) against the current file
system `fs`: skip identity renames, otherwise find a free candidate and rename
(`os.rename` removes the source and creates the target).  Returns the new file
system and the executed rename, if any. -/
def renameStep (fs : List String) (showName seasonStr : String) (ep : Nat) (old : String) :
    List String × Option (String × String) :=
  let folder := dirnameOf old
  let ext := extOf old
  let newPath := targetOf showName seasonStr ep old
  if old = newPath then (fs, none)
  else
    match collisionLoop fs
        (fun k => joinPath folder (nameStemOf showName seasonStr ep ++ "_" ++ pyNat k ++ ext))
        (fs.length + 1) newPath 1 with
    | some cand => (cand :: fs.erase old, some (old, cand))
    | none => (fs, none)

/-- The rename loop of lines 704-730 over the whole batch, also accumulating
`renamed_count`. -/
def rename_files_tv (fs : List String) (showName seasonStr : String) :
    List (Nat × String) → List String × List (String × String) × Nat
  | [] => (fs, [], 0)
  | (ep, old) :: rest =>
    let step := renameStep fs showName seasonStr ep old
    match step.2 with
    | none =>
      let r := rename_files_tv step.1 showName seasonStr rest
      (r.1, r.2.1, r.2.2)
    | some rn =>
      let r := rename_files_tv step.1 showName seasonStr rest
      (r.1, rn :: r.2.1, r.2.2 + 1)

/-! ## Lemmas about the token normalizer -/

theorem subRunsAux_cons_pos_true (p : Char → Bool) (x : Char) (xs : List Char)
    (hx : p x = true) : subRunsAux p true (x :: xs) = subRunsAux p true xs := by
  simp [subRunsAux, hx]

theorem subRunsAux_cons_pos_false (p : Char → Bool) (x : Char) (xs : List Char)
    (hx : p x = true) : subRunsAux p false (x :: xs) = '.' :: subRunsAux p true xs := by
  simp [subRunsAux, hx]

theorem subRunsAux_cons_neg (p : Char → Bool) (b : Bool) (x : Char) (xs : List Char)
    (hx : p x = false) : subRunsAux p b (x :: xs) = x :: subRunsAux p false xs := by
  cases b <;> simp [subRunsAux, hx]

theorem mem_subRunsAux (p : Char → Bool) (l : List Char) :
    ∀ b c, c ∈ subRunsAux p b l → (c ∈ l ∧ p c = false) ∨ c = '.' := by
  induction l with
  | nil => intro b c hc; simp [subRunsAux] at hc
  | cons x xs ih =>
    intro b c hc
    by_cases hx : p x
    · cases b with
      | true =>
        rw [subRunsAux_cons_pos_true p x xs hx] at hc
        rcases ih true c hc with ⟨h1, h2⟩ | h
        · exact Or.inl ⟨List.mem_cons_of_mem _ h1, h2⟩
        · exact Or.inr h
      | false =>
        rw [subRunsAux_cons_pos_false p x xs hx] at hc
        rcases List.mem_cons.mp hc with h | h
        · exact Or.inr h
        · rcases ih true c h with ⟨h1, h2⟩ | h3
          · exact Or.inl ⟨List.mem_cons_of_mem _ h1, h2⟩
          · exact Or.inr h3
    · rw [subRunsAux_cons_neg p b x xs (by simpa using hx)] at hc
      rcases List.mem_cons.mp hc with h | h
      · subst h; exact Or.inl ⟨List.mem_cons_self _ _, by simpa using hx⟩
      · rcases ih false c h with ⟨h1, h2⟩ | h3
        · exact Or.inl ⟨List.mem_cons_of_mem _ h1, h2⟩
        · exact Or.inr h3

theorem subRunsAux_self (p : Char → Bool) (l : List Char)
    (h : ∀ c ∈ l, p c = false) : ∀ b, subRunsAux p b l = l := by
  induction l with
  | nil => intro b; rfl
  | cons x xs ih =>
    intro b
    have hx : p x = false := h x (List.mem_cons_self _ _)
    rw [subRunsAux_cons_neg p b x xs hx,
      ih (fun c hc => h c (List.mem_cons_of_mem _ hc)) false]

theorem head_subRunsAux_true (p : Char → Bool) (l : List Char) :
    ∀ h ∈ (subRunsAux p true l).head?, p h = false := by
  induction l with
  | nil => intro h hh; simp [subRunsAux] at hh
  | cons x xs ih =>
    intro h hh
    by_cases hx : p x
    · rw [subRunsAux_cons_pos_true p x xs hx] at hh
      exact ih h hh
    · rw [subRunsAux_cons_neg p true x xs (by simpa using hx)] at hh
      simp only [List.head?_cons, Option.mem_def, Option.some.injEq] at hh
      subst hh; simpa using hx

theorem chain_subRunsAux_dot (l : List Char) :
    ∀ b, List.Chain' noDots (subRunsAux isDotB b l) := by
  induction l with
  | nil => intro b; simp [subRunsAux]
  | cons x xs ih =>
    intro b
    by_cases hx : isDotB x
    · cases b with
      | true => rw [subRunsAux_cons_pos_true isDotB x xs hx]; exact ih true
      | false =>
        rw [subRunsAux_cons_pos_false isDotB x xs hx]
        refine (ih true).cons' ?_
        intro a ha
        have hpa := head_subRunsAux_true isDotB xs a ha
        intro hcon
        rw [hcon.2] at hpa
        simp [isDotB] at hpa
    · rw [subRunsAux_cons_neg isDotB b x xs (by simpa using hx)]
      refine (ih false).cons' ?_
      intro a _
      intro hcon
      rw [hcon.1] at hx
      simp [isDotB] at hx

theorem subRunsAux_dot_fix (l : List Char) (hch : List.Chain' noDots l) :
    subRunsAux isDotB false l = l ∧
      ((∀ h ∈ l.head?, h ≠ '.') → subRunsAux isDotB true l = l) := by
  induction l with
  | nil => exact ⟨rfl, fun _ => rfl⟩
  | cons x xs ih =>
    have hch' : List.Chain' noDots xs := hch.tail
    have hrel : ∀ a ∈ xs.head?, noDots x a := (List.chain'_cons'.mp hch).1
    rcases ih hch' with ⟨ihf, iht⟩
    constructor
    · by_cases hx : isDotB x
      · have hxd : x = '.' := by simpa [isDotB] using hx
        rw [subRunsAux_cons_pos_false isDotB x xs hx]
        rw [iht ?_, hxd]
        intro h hh
        have := hrel h hh
        subst hxd
        intro hcon
        exact this ⟨rfl, hcon⟩
      · rw [subRunsAux_cons_neg isDotB false x xs (by simpa using hx), ihf]
    · intro hhead
      have hx : isDotB x = false := by
        have := hhead x (by simp)
        simp [isDotB]
        exact this
      rw [subRunsAux_cons_neg isDotB true x xs hx, ihf]

theorem dropWhile_all_false (p : Char → Bool) (l : List Char)
    (h : ∀ c ∈ l, p c = false) : l.dropWhile p = l := by
  cases l with
  | nil => rfl
  | cons x xs =>
    have hx : p x = false := h x (List.mem_cons_self _ _)
    simp [List.dropWhile_cons, hx]

theorem head?_dropWhile_false (p : Char → Bool) (l : List Char) :
    ∀ h ∈ (l.dropWhile p).head?, p h = false := by
  intro h hh
  have := List.head?_dropWhile_not p l
  rw [Option.mem_def.mp hh] at this
  simpa using this

theorem getLast?_dropWhile_ne (p : Char → Bool) (l : List Char)
    (h : l.dropWhile p ≠ []) : (l.dropWhile p).getLast? = l.getLast? := by
  induction l with
  | nil => simp at h
  | cons x xs ih =>
    by_cases hx : p x
    · simp only [List.dropWhile_cons, hx, if_true] at h ⊢
      have hxs : xs ≠ [] := by
        intro hcon; rw [hcon] at h; simp at h
      cases xs with
      | nil => exact absurd rfl hxs
      | cons y ys => rw [ih h, List.getLast?_cons_cons]
    · simp [List.dropWhile_cons, hx]

theorem stripBoth_within (p : Char → Bool) (l : List Char) :
    List.IsInfix (stripBoth p l) l := by
  unfold stripBoth
  have h1 : List.IsSuffix (l.dropWhile p) l := List.dropWhile_suffix p
  have h2 : List.IsSuffix ((l.dropWhile p).reverse.dropWhile p) (l.dropWhile p).reverse :=
    List.dropWhile_suffix p
  have h3 : List.IsPrefix ((l.dropWhile p).reverse.dropWhile p).reverse (l.dropWhile p) := by
    rw [← List.reverse_suffix]
    simpa using h2
  exact List.IsInfix.trans (List.IsPrefix.isInfix h3) (List.IsSuffix.isInfix h1)

theorem mem_stripBoth (p : Char → Bool) (l : List Char) (c : Char)
    (h : c ∈ stripBoth p l) : c ∈ l := List.IsInfix.subset (stripBoth_within p l) h

theorem stripBoth_head (p : Char → Bool) (l : List Char) :
    ∀ h ∈ (stripBoth p l).head?, p h = false := by
  intro h hh
  unfold stripBoth at hh
  rw [List.head?_reverse] at hh
  have hne : (l.dropWhile p).reverse.dropWhile p ≠ [] := by
    intro hcon
    rw [hcon] at hh
    simp at hh
  rw [getLast?_dropWhile_ne p _ hne, List.getLast?_reverse] at hh
  exact head?_dropWhile_false p l h hh

theorem stripBoth_getLast (p : Char → Bool) (l : List Char) :
    ∀ h ∈ (stripBoth p l).getLast?, p h = false := by
  intro h hh
  unfold stripBoth at hh
  rw [List.getLast?_reverse] at hh
  exact head?_dropWhile_false p _ h hh

theorem stripBoth_all_id (p : Char → Bool) (l : List Char)
    (h : ∀ c ∈ l, p c = false) : stripBoth p l = l := by
  unfold stripBoth
  rw [dropWhile_all_false p l h]
  rw [dropWhile_all_false p l.reverse (fun c hc => h c (List.mem_reverse.mp hc))]
  exact List.reverse_reverse l

theorem stripBoth_id (p : Char → Bool) (l : List Char)
    (hh : ∀ h ∈ l.head?, p h = false) (hl : ∀ h ∈ l.getLast?, p h = false) :
    stripBoth p l = l := by
  unfold stripBoth
  have h1 : l.dropWhile p = l := by
    cases l with
    | nil => rfl
    | cons x xs =>
      have := hh x (by simp)
      simp [List.dropWhile_cons, this]
  rw [h1]
  have h2 : l.reverse.dropWhile p = l.reverse := by
    cases hr : l.reverse with
    | nil => simp
    | cons y ys =>
      have hy : l.getLast? = some y := by
        rw [← List.head?_reverse, hr]; rfl
      have := hl y hy
      simp [List.dropWhile_cons, this]
  rw [h2, List.reverse_reverse]

theorem normCore_spund (r : List Char) : ∀ c ∈ normCore r, isSpUnd c = false := by
  intro c hc
  unfold normCore at hc
  have h3 := mem_stripBoth _ _ _ hc
  rcases mem_subRunsAux isDotB _ false c h3 with ⟨h2, _⟩ | hdot
  · rcases mem_subRunsAux notWordDot _ false c h2 with ⟨h1, _⟩ | hdot
    · rcases mem_subRunsAux isSpUnd _ false c h1 with ⟨_, hp⟩ | hdot
      · exact hp
      · subst hdot; decide
    · subst hdot; decide
  · subst hdot; decide

theorem normCore_wordDot (r : List Char) : ∀ c ∈ normCore r, notWordDot c = false := by
  intro c hc
  unfold normCore at hc
  have h3 := mem_stripBoth _ _ _ hc
  rcases mem_subRunsAux isDotB _ false c h3 with ⟨h2, _⟩ | hdot
  · rcases mem_subRunsAux notWordDot _ false c h2 with ⟨_, hp⟩ | hdot
    · exact hp
    · subst hdot; decide
  · subst hdot; decide

theorem normCore_chain (r : List Char) : List.Chain' noDots (normCore r) :=
  List.Chain'.infix (chain_subRunsAux_dot _ false) (stripBoth_within _ _)

theorem normCore_head (r : List Char) : ∀ h ∈ (normCore r).head?, h ≠ '.' := by
  intro h hh
  have := stripBoth_head isDotB _ h hh
  simpa [isDotB] using this

theorem normCore_getLast (r : List Char) : ∀ h ∈ (normCore r).getLast?, h ≠ '.' := by
  intro h hh
  have := stripBoth_getLast isDotB _ h hh
  simpa [isDotB] using this

theorem normCore_fix (l : List Char)
    (hsp : ∀ c ∈ l, isSpUnd c = false)
    (hwd : ∀ c ∈ l, notWordDot c = false)
    (hch : List.Chain' noDots l)
    (hh : ∀ h ∈ l.head?, h ≠ '.')
    (hl : ∀ h ∈ l.getLast?, h ≠ '.') :
    normCore l = l := by
  unfold normCore
  rw [subRunsAux_self isSpUnd l hsp false]
  rw [subRunsAux_self notWordDot l hwd false]
  rw [(subRunsAux_dot_fix l hch).1]
  refine stripBoth_id isDotB l ?_ ?_
  · intro h hmem
    have := hh h hmem
    simp [isDotB]; exact this
  · intro h hmem
    have := hl h hmem
    simp [isDotB]; exact this

theorem normalize_data_eq (raw : String) (h : normalize_show_name raw ≠ "") :
    (normalize_show_name raw).data = normCore (stripBoth isSpaceB raw.data) := by
  unfold normalize_show_name at h ⊢
  by_cases hr : stripBoth isSpaceB raw.data = []
  · rw [if_pos hr] at h; exact absurd rfl h
  · rw [if_neg hr]

theorem normalize_mem_chars (raw : String) :
    ∀ c ∈ (normalize_show_name raw).data, isSpUnd c = false ∧ notWordDot c = false := by
  intro c hc
  by_cases h : normalize_show_name raw = ""
  · rw [h] at hc; simp at hc
  · rw [normalize_data_eq raw h] at hc
    exact ⟨normCore_spund _ c hc, normCore_wordDot _ c hc⟩

theorem isSpUnd_space (c : Char) (h : isSpUnd c = false) : isSpaceB c = false := by
  unfold isSpUnd at h
  exact (Bool.or_eq_false_iff.mp h).1

theorem normalize_fix (s : String)
    (hsp : ∀ c ∈ s.data, isSpUnd c = false)
    (hwd : ∀ c ∈ s.data, notWordDot c = false)
    (hch : List.Chain' noDots s.data)
    (hh : ∀ x ∈ s.data.head?, x ≠ '.')
    (hl : ∀ x ∈ s.data.getLast?, x ≠ '.') :
    normalize_show_name s = s := by
  have hnospace : ∀ c ∈ s.data, isSpaceB c = false := fun c hc => isSpUnd_space c (hsp c hc)
  unfold normalize_show_name
  rw [stripBoth_all_id isSpaceB s.data hnospace]
  by_cases hnil : s.data = []
  · rw [if_pos hnil]
    exact String.ext hnil.symm
  · rw [if_neg hnil, normCore_fix s.data hsp hwd hch hh hl]

/-- C4: the token normalizer is idempotent — for every input string,
`normalize_show_name (normalize_show_name x) = normalize_show_name x`. -/
theorem normalize_show_name_idempotent (raw : String) :
    normalize_show_name (normalize_show_name raw) = normalize_show_name raw := by
  by_cases h : normalize_show_name raw = ""
  · rw [h]; rfl
  · have hdata := normalize_data_eq raw h
    refine normalize_fix (normalize_show_name raw) ?_ ?_ ?_ ?_ ?_
    · exact fun c hc => (normalize_mem_chars raw c hc).1
    · exact fun c hc => (normalize_mem_chars raw c hc).2
    · rw [hdata]; exact normCore_chain _
    · rw [hdata]; exact normCore_head _
    · rw [hdata]; exact normCore_getLast _

/-- C5: for every input, the output of the normalizer has no whitespace
character, no underscore, no two consecutive dots (expressed as the chain
invariant `noDots` on adjacent characters) and no leading or trailing dot;
empty or whitespace-only input yields the empty string. -/
theorem normalize_show_name_invariants (raw : String) :
    (∀ c ∈ (normalize_show_name raw).data, isSpaceB c = false) ∧
    (∀ c ∈ (normalize_show_name raw).data, c ≠ '_') ∧
    List.Chain' noDots (normalize_show_name raw).data ∧
    (∀ x ∈ (normalize_show_name raw).data.head?, x ≠ '.') ∧
    (∀ x ∈ (normalize_show_name raw).data.getLast?, x ≠ '.') ∧
    ((∀ c ∈ raw.data, isSpaceB c = true) → normalize_show_name raw = "") := by
  refine ⟨?_, ?_, ?_, ?_, ?_, ?_⟩
  · exact fun c hc => isSpUnd_space c (normalize_mem_chars raw c hc).1
  · intro c hc hcon
    have := (normalize_mem_chars raw c hc).1
    rw [hcon] at this
    simp [isSpUnd] at this
  · by_cases h : normalize_show_name raw = ""
    · rw [h]; simp
    · rw [normalize_data_eq raw h]; exact normCore_chain _
  · intro x hx
    by_cases h : normalize_show_name raw = ""
    · rw [h] at hx; simp at hx
    · rw [normalize_data_eq raw h] at hx; exact normCore_head _ x hx
  · intro x hx
    by_cases h : normalize_show_name raw = ""
    · rw [h] at hx; simp at hx
    · rw [normalize_data_eq raw h] at hx; exact normCore_getLast _ x hx
  · intro hall
    unfold normalize_show_name
    have : raw.data.dropWhile isSpaceB = [] := by
      rw [List.dropWhile_eq_nil_iff]
      intro x hx
      exact hall x hx
    unfold stripBoth
    rw [this]
    simp

/-- Witness for C5 at concrete inputs, discharging the whitespace-only
hypothesis. -/
theorem normalize_show_name_invariants_witness :
    (∀ c ∈ (normalize_show_name "a b_c").data, isSpaceB c = false) ∧
      normalize_show_name "   " = "" :=
  ⟨fun c hc => (normalize_show_name_invariants "a b_c").1 c hc,
   (normalize_show_name_invariants "   ").2.2.2.2.2 (by decide)⟩

/-! ## The extractor on the spec's concrete examples (C6) -/

/-- C6: the episode extractor returns 7 for `The.Walking.Dead.S01E07.720p.mkv`
(rule 1), 12 for `Show.1x12.mkv` (rule 2), 3 for `Ep 03 - title.mp4` (rule 3)
and 3 for `03 Cartman.mkv` (rule 4). -/
theorem extract_episode_number_examples :
    extract_episode_number "The.Walking.Dead.S01E07.720p.mkv" = some 7 ∧
    extract_episode_number "Show.1x12.mkv" = some 12 ∧
    extract_episode_number "Ep 03 - title.mp4" = some 3 ∧
    extract_episode_number "03 Cartman.mkv" = some 3 := by decide

/-! ## Rule 3 and word boundaries (C7)

The source regex of rule 3 (line 138) is `[eE][pP]?[ ._-]?(\d{1,2})\b`: it has
a trailing `\b` after the digits but no leading `\b` before the `[eE]`, so an
`E` immediately preceded by a word character still starts a rule-3 match. -/

theorem take12_spec (l : List Char) :
    l = (take12 l).1 ++ (take12 l).2 ∧ (∀ c ∈ (take12 l).1, isDigitB c = true) ∧
      (take12 l).1.length ≤ 2 := by
  cases l with
  | nil => refine ⟨rfl, ?_, ?_⟩ <;> simp [take12]
  | cons c r =>
    by_cases hc : isDigitB c
    · cases r with
      | nil =>
        have ht : take12 [c] = ([c], []) := by simp [take12, hc]
        rw [ht]
        refine ⟨by simp, ?_, by simp⟩
        intro x hx
        rw [List.mem_singleton.mp hx]
        exact hc
      | cons c2 r2 =>
        by_cases hc2 : isDigitB c2
        · have ht : take12 (c :: c2 :: r2) = ([c, c2], r2) := by simp [take12, hc, hc2]
          rw [ht]
          refine ⟨by simp, ?_, by simp⟩
          intro x hx
          rcases List.mem_cons.mp hx with rfl | hx2
          · exact hc
          · rw [List.mem_singleton.mp hx2]
            exact hc2
        · have ht : take12 (c :: c2 :: r2) = ([c], c2 :: r2) := by simp [take12, hc, hc2]
          rw [ht]
          refine ⟨by simp, ?_, by simp⟩
          intro x hx
          rw [List.mem_singleton.mp hx]
          exact hc
    · have ht : take12 (c :: r) = ([], c :: r) := by simp [take12, hc]
      rw [ht]
      refine ⟨by simp, by simp, by simp⟩

theorem p3Digits_spec (l : List Char) (n : Nat) (h : p3Digits l = some n) :
    ∃ d w, l = d ++ w ∧ d ≠ [] ∧ (∀ c ∈ d, isDigitB c = true) ∧ d.length ≤ 2 ∧
      n = natVal d ∧ boundaryB w = true := by
  unfold p3Digits at h
  by_cases hd : (take12 l).1 = []
  · rw [if_pos hd] at h; cases h
  · rw [if_neg hd] at h
    by_cases hb : boundaryB (take12 l).2 = true
    · rw [if_pos hb] at h
      cases h
      have hspec := take12_spec l
      exact ⟨(take12 l).1, (take12 l).2, hspec.1, hd, hspec.2.1, hspec.2.2, rfl, hb⟩
    · rw [if_neg hb] at h; cases h

theorem p3Sep_spec (l : List Char) (n : Nat) (h : p3Sep l = some n) :
    ∃ sp d w, l = sp ++ d ++ w ∧
      (sp = [] ∨ ∃ c, sp = [c] ∧ isSepB c = true) ∧
      d ≠ [] ∧ (∀ c ∈ d, isDigitB c = true) ∧ d.length ≤ 2 ∧
      n = natVal d ∧ boundaryB w = true := by
  cases l with
  | nil => cases h
  | cons c r =>
    have hdef : p3Sep (c :: r) = (if isSepB c then p3Digits r else p3Digits (c :: r)) := rfl
    rw [hdef] at h
    by_cases hc : isSepB c
    · rw [if_pos hc] at h
      rcases p3Digits_spec r n h with ⟨d, w, heq, hd⟩
      exact ⟨[c], d, w, by simp [heq], Or.inr ⟨c, rfl, hc⟩, hd⟩
    · rw [if_neg hc] at h
      rcases p3Digits_spec (c :: r) n h with ⟨d, w, heq, hd⟩
      exact ⟨[], d, w, by simpa using heq, Or.inl rfl, hd⟩

theorem p3P_spec (l : List Char) (n : Nat) (h : p3P l = some n) :
    ∃ ps d w, l = ps ++ d ++ w ∧
      (ps = [] ∨ (∃ c, ps = [c] ∧ (c = 'p' ∨ c = 'P' ∨ isSepB c = true)) ∨
        (∃ c c2, ps = [c, c2] ∧ (c = 'p' ∨ c = 'P') ∧ isSepB c2 = true)) ∧
      d ≠ [] ∧ (∀ c ∈ d, isDigitB c = true) ∧ d.length ≤ 2 ∧
      n = natVal d ∧ boundaryB w = true := by
  cases l with
  | nil => cases h
  | cons c r =>
    have hdef : p3P (c :: r) =
        (if c = 'p' ∨ c = 'P' then p3Sep r else p3Sep (c :: r)) := rfl
    rw [hdef] at h
    by_cases hc : c = 'p' ∨ c = 'P'
    · rw [if_pos hc] at h
      rcases p3Sep_spec r n h with ⟨sp, d, w, heq, hsp, hd⟩
      rcases hsp with rfl | ⟨c2, rfl, hc2⟩
      · exact ⟨[c], d, w, by simpa using heq, Or.inr (Or.inl ⟨c, rfl, by tauto⟩), hd⟩
      · exact ⟨[c, c2], d, w, by simpa using heq,
          Or.inr (Or.inr ⟨c, c2, rfl, hc, hc2⟩), hd⟩
    · rw [if_neg hc] at h
      rcases p3Sep_spec (c :: r) n h with ⟨sp, d, w, heq, hsp, hd⟩
      rcases hsp with rfl | ⟨c2, rfl, hc2⟩
      · exact ⟨[], d, w, by simpa using heq, Or.inl rfl, hd⟩
      · exact ⟨[c2], d, w, by simpa using heq,
          Or.inr (Or.inl ⟨c2, rfl, Or.inr (Or.inr hc2)⟩), hd⟩

theorem p3At_spec (l : List Char) (n : Nat) (h : p3At l = some n) :
    ∃ e r, l = e :: r ∧ (e = 'e' ∨ e = 'E') ∧ p3P r = some n := by
  cases l with
  | nil => cases h
  | cons c r =>
    have hdef : p3At (c :: r) = (if c = 'e' ∨ c = 'E' then p3P r else none) := rfl
    rw [hdef] at h
    by_cases hc : c = 'e' ∨ c = 'E'
    · rw [if_pos hc] at h
      exact ⟨c, r, rfl, hc, h⟩
    · rw [if_neg hc] at h
      cases h

theorem p3Search_spec (l : List Char) (n : Nat) (h : p3Search l = some n) :
    ∃ u v, l = u ++ v ∧ p3At v = some n := by
  induction l with
  | nil => cases h
  | cons c r ih =>
    have hdef : p3Search (c :: r) =
        (match p3At (c :: r) with
         | some n => some n
         | none => p3Search r) := rfl
    rw [hdef] at h
    rcases hat : p3At (c :: r) with _ | m
    · rw [hat] at h
      rcases ih h with ⟨u, v, heq, hv⟩
      exact ⟨c :: u, v, by rw [heq]; rfl, hv⟩
    · rw [hat] at h
      cases h
      exact ⟨[], c :: r, rfl, hat⟩

/-- C7 counterexample: on the base name `abE5` rules 1 and 2 both fail, and
rule 3 matches even though its `E` is immediately preceded by the word
character `b` — the only position where the rule-3 matcher succeeds is the
`E5` suffix, whose `E` is not at a word boundary.  The claim that such an `E`
cannot produce a rule-3 match is therefore false. -/
theorem rule3_not_left_bounded_cex :
    seSearch ("abE5".data) = none ∧
    x12Search none ("abE5".data) = none ∧
    p3Search ("abE5".data) = some 5 ∧
    p3At ("abE5".data) = none ∧
    p3At ("bE5".data) = none ∧
    p3At ("E5".data) = some 5 ∧
    p3At ("5".data) = none ∧
    isWordB 'b' = true ∧
    extract_episode_number "abE5.mkv" = some 5 := by decide

/-- C7 (amended): rule 3 enforces only the trailing word boundary.  Whenever
rule 3 produces a match, the string decomposes as some prefix, the matched
`[eE]`, the optional `[pP]` / separator pieces, one or two digits giving the
returned value, and a remainder that begins at a word boundary (it is empty or
starts with a non-word character).  No condition constrains the character
before the `E`: an `E` preceded by a word character may still match. -/
theorem rule3_trailing_word_bounded (base : List Char) (n : Nat)
    (h : p3Search base = some n) :
    ∃ u e ps d w, base = u ++ e :: (ps ++ d ++ w) ∧ (e = 'e' ∨ e = 'E') ∧
      (ps = [] ∨ (∃ c, ps = [c] ∧ (c = 'p' ∨ c = 'P' ∨ isSepB c = true)) ∨
        (∃ c c2, ps = [c, c2] ∧ (c = 'p' ∨ c = 'P') ∧ isSepB c2 = true)) ∧
      d ≠ [] ∧ (∀ c ∈ d, isDigitB c = true) ∧ d.length ≤ 2 ∧ n = natVal d ∧
      (w = [] ∨ ∃ c cs, w = c :: cs ∧ isWordB c = false) := by
  rcases p3Search_spec base n h with ⟨u, v, heq, hat⟩
  rcases p3At_spec v n hat with ⟨e, r, rfl, he, hp⟩
  rcases p3P_spec r n hp with ⟨ps, d, w, rfl, hps, hd1, hd2, hd3, hd4, hb⟩
  refine ⟨u, e, ps, d, w, heq, he, hps, hd1, hd2, hd3, hd4, ?_⟩
  cases w with
  | nil => exact Or.inl rfl
  | cons c cs =>
    right
    refine ⟨c, cs, rfl, ?_⟩
    unfold boundaryB at hb
    simpa using hb

/-- Witness for the amended C7 theorem at the concrete base `Ep 03 - title`. -/
theorem rule3_trailing_word_bounded_witness :
    p3Search ("Ep 03 - title".data) = some 3 ∧
      (∃ u e ps d w, "Ep 03 - title".data = u ++ e :: (ps ++ d ++ w) ∧
        (e = 'e' ∨ e = 'E') ∧
        (ps = [] ∨ (∃ c, ps = [c] ∧ (c = 'p' ∨ c = 'P' ∨ isSepB c = true)) ∨
          (∃ c c2, ps = [c, c2] ∧ (c = 'p' ∨ c = 'P') ∧ isSepB c2 = true)) ∧
        d ≠ [] ∧ (∀ c ∈ d, isDigitB c = true) ∧ d.length ≤ 2 ∧ (3 : Nat) = natVal d ∧
        (w = [] ∨ ∃ c cs, w = c :: cs ∧ isWordB c = false)) :=
  ⟨by decide, rule3_trailing_word_bounded ("Ep 03 - title".data) 3 (by decide)⟩

/-! ## The extractor fails exactly on digit-free base names (C10) -/

theorem take12_fst_nil (l : List Char) (h : ∀ c ∈ l, isDigitB c = false) :
    (take12 l).1 = [] := by
  cases l with
  | nil => rfl
  | cons c r =>
    have hc := h c (List.mem_cons_self _ _)
    have ht : take12 (c :: r) = ([], c :: r) := by simp [take12, hc]
    rw [ht]

theorem takeDigits_fst_nil (l : List Char) (h : ∀ c ∈ l, isDigitB c = false) :
    (takeDigits l).1 = [] := by
  cases l with
  | nil => rfl
  | cons c r =>
    have hc := h c (List.mem_cons_self _ _)
    simp [takeDigits, hc]

theorem seAt_none (l : List Char) (h : ∀ c ∈ l, isDigitB c = false) : seAt l = none := by
  cases l with
  | nil => rfl
  | cons c r =>
    have hdef : seAt (c :: r) =
        (if c = 's' ∨ c = 'S' then
          if (take12 r).1 = [] then none
          else
            match ((take12 r).2).dropWhile isSepB with
            | [] => none
            | e :: r3 =>
              if e = 'e' ∨ e = 'E' then
                if (take12 r3).1 = [] then none
                else some (natVal (take12 r).1, natVal (take12 r3).1)
              else none
        else none) := rfl
    rw [hdef]
    by_cases hc : c = 's' ∨ c = 'S'
    · rw [if_pos hc, if_pos (take12_fst_nil r (fun x hx => h x (List.mem_cons_of_mem _ hx)))]
    · rw [if_neg hc]

theorem seSearch_none (l : List Char) (h : ∀ c ∈ l, isDigitB c = false) :
    seSearch l = none := by
  induction l with
  | nil => rfl
  | cons c r ih =>
    have hdef : seSearch (c :: r) =
        (match seAt (c :: r) with
         | some v => some v
         | none => seSearch r) := rfl
    rw [hdef, seAt_none (c :: r) h]
    exact ih (fun x hx => h x (List.mem_cons_of_mem _ hx))

theorem x12At_none (prev : Option Char) (l : List Char)
    (h : ∀ c ∈ l, isDigitB c = false) : x12At prev l = none := by
  unfold x12At
  by_cases hb : (match prev with | none => true | some q => !isWordB q) = true
  · rw [if_pos hb, if_pos (take12_fst_nil l h)]
  · rw [if_neg hb]

theorem x12Search_none (l : List Char) (h : ∀ c ∈ l, isDigitB c = false) :
    ∀ prev, x12Search prev l = none := by
  induction l with
  | nil => intro prev; rfl
  | cons c r ih =>
    intro prev
    have hdef : x12Search prev (c :: r) =
        (match x12At prev (c :: r) with
         | some n => some n
         | none => x12Search (some c) r) := rfl
    rw [hdef, x12At_none prev (c :: r) h]
    exact ih (fun x hx => h x (List.mem_cons_of_mem _ hx)) (some c)

theorem p3Digits_none (l : List Char) (h : ∀ c ∈ l, isDigitB c = false) :
    p3Digits l = none := by
  unfold p3Digits
  rw [if_pos (take12_fst_nil l h)]

theorem p3Sep_none (l : List Char) (h : ∀ c ∈ l, isDigitB c = false) :
    p3Sep l = none := by
  cases l with
  | nil => rfl
  | cons c r =>
    have hdef : p3Sep (c :: r) = (if isSepB c then p3Digits r else p3Digits (c :: r)) := rfl
    rw [hdef]
    by_cases hc : isSepB c
    · rw [if_pos hc, p3Digits_none r (fun x hx => h x (List.mem_cons_of_mem _ hx))]
    · rw [if_neg hc, p3Digits_none (c :: r) h]

theorem p3P_none (l : List Char) (h : ∀ c ∈ l, isDigitB c = false) : p3P l = none := by
  cases l with
  | nil => rfl
  | cons c r =>
    have hdef : p3P (c :: r) = (if c = 'p' ∨ c = 'P' then p3Sep r else p3Sep (c :: r)) := rfl
    rw [hdef]
    by_cases hc : c = 'p' ∨ c = 'P'
    · rw [if_pos hc, p3Sep_none r (fun x hx => h x (List.mem_cons_of_mem _ hx))]
    · rw [if_neg hc, p3Sep_none (c :: r) h]

theorem p3At_none (l : List Char) (h : ∀ c ∈ l, isDigitB c = false) : p3At l = none := by
  cases l with
  | nil => rfl
  | cons c r =>
    have hdef : p3At (c :: r) = (if c = 'e' ∨ c = 'E' then p3P r else none) := rfl
    rw [hdef]
    by_cases hc : c = 'e' ∨ c = 'E'
    · rw [if_pos hc, p3P_none r (fun x hx => h x (List.mem_cons_of_mem _ hx))]
    · rw [if_neg hc]

theorem p3Search_none (l : List Char) (h : ∀ c ∈ l, isDigitB c = false) :
    p3Search l = none := by
  induction l with
  | nil => rfl
  | cons c r ih =>
    have hdef : p3Search (c :: r) =
        (match p3At (c :: r) with
         | some n => some n
         | none => p3Search r) := rfl
    rw [hdef, p3At_none (c :: r) h]
    exact ih (fun x hx => h x (List.mem_cons_of_mem _ hx))

theorem p4Match_none (l : List Char) (h : ∀ c ∈ l, isDigitB c = false) :
    p4Match l = none := by
  unfold p4Match
  rw [if_pos (takeDigits_fst_nil _ (fun x hx =>
    h x ((List.dropWhile_suffix isSpaceB).subset hx)))]

theorem runsAux_eq_nil_iff (l : List Char) :
    ∀ cur, runsAux cur l = [] ↔ (cur = [] ∧ ∀ c ∈ l, isDigitB c = false) := by
  induction l with
  | nil =>
    intro cur
    constructor
    · intro h
      by_cases hc : cur = []
      · exact ⟨hc, by simp⟩
      · rw [show runsAux cur [] = [cur.reverse] from by simp [runsAux, hc]] at h
        cases h
    · rintro ⟨rfl, _⟩
      rfl
  | cons c r ih =>
    intro cur
    by_cases hc : isDigitB c
    · rw [show runsAux cur (c :: r) = runsAux (c :: cur) r from by simp [runsAux, hc]]
      constructor
      · intro h
        have := (ih (c :: cur)).mp h
        cases this.1
      · rintro ⟨_, hall⟩
        exact absurd (hall c (List.mem_cons_self _ _)) (by simpa using hc)
    · by_cases hcur : cur = []
      · subst hcur
        rw [show runsAux [] (c :: r) = runsAux [] r from by simp [runsAux, hc]]
        rw [ih []]
        constructor
        · rintro ⟨_, hall⟩
          refine ⟨rfl, ?_⟩
          intro x hx
          rcases List.mem_cons.mp hx with rfl | hx2
          · simpa using hc
          · exact hall x hx2
        · rintro ⟨_, hall⟩
          exact ⟨rfl, fun x hx => hall x (List.mem_cons_of_mem _ hx)⟩
      · rw [show runsAux cur (c :: r) = cur.reverse :: runsAux [] r from by
          simp [runsAux, hc, hcur]]
        constructor
        · intro h; cases h
        · rintro ⟨hcon, _⟩; exact absurd hcon hcur

theorem runsAux_mem_ne_nil (l : List Char) :
    ∀ cur run, run ∈ runsAux cur l → run ≠ [] := by
  induction l with
  | nil =>
    intro cur run hmem
    by_cases hc : cur = []
    · rw [show runsAux cur [] = [] from by simp [runsAux, hc]] at hmem
      cases hmem
    · rw [show runsAux cur [] = [cur.reverse] from by simp [runsAux, hc]] at hmem
      rcases List.mem_singleton.mp hmem with rfl
      simpa using hc
  | cons c r ih =>
    intro cur run hmem
    by_cases hc : isDigitB c
    · rw [show runsAux cur (c :: r) = runsAux (c :: cur) r from by simp [runsAux, hc]] at hmem
      exact ih (c :: cur) run hmem
    · by_cases hcur : cur = []
      · subst hcur
        rw [show runsAux [] (c :: r) = runsAux [] r from by simp [runsAux, hc]] at hmem
        exact ih [] run hmem
      · rw [show runsAux cur (c :: r) = cur.reverse :: runsAux [] r from by
          simp [runsAux, hc, hcur]] at hmem
        rcases List.mem_cons.mp hmem with rfl | hmem2
        · simpa using hcur
        · exact ih [] run hmem2

theorem chunk12_eq_nil_iff (l : List Char) : chunk12 l = [] ↔ l = [] := by
  cases l with
  | nil => simp [chunk12]
  | cons a r =>
    cases r with
    | nil => simp [chunk12]
    | cons b r2 => simp [chunk12]

theorem findall12_eq_nil_iff (l : List Char) :
    findall12 l = [] ↔ ∀ c ∈ l, isDigitB c = false := by
  unfold findall12
  rw [List.flatten_eq_nil_iff]
  constructor
  · intro h
    by_cases hr : runsAux [] l = []
    · exact ((runsAux_eq_nil_iff l []).mp hr).2
    · exfalso
      rcases List.exists_mem_of_ne_nil _ hr with ⟨run, hrun⟩
      have hne : run ≠ [] := runsAux_mem_ne_nil l [] run hrun
      have : chunk12 run = [] := h _ (List.mem_map_of_mem chunk12 hrun)
      exact hne ((chunk12_eq_nil_iff run).mp this)
  · intro h x hx
    rw [(runsAux_eq_nil_iff l []).mpr ⟨rfl, h⟩] at hx
    simp at hx

/-- C10: the extractor returns `none` exactly when the base name (directory and
extension stripped) contains no decimal digit; equivalently, whenever the base
name contains a digit, fallback rule 5 (or an earlier rule) produces an
episode number. -/
theorem extract_episode_number_none_iff (filename : String) :
    extract_episode_number filename = none ↔
      ∀ c ∈ (epBase filename).data, isDigitB c = false := by
  constructor
  · intro h
    unfold extract_episode_number at h
    rcases h1 : seSearch (epBase filename).data with _ | v
    · rcases h2 : x12Search none (epBase filename).data with _ | n2
      · rcases h3 : p3Search (epBase filename).data with _ | n3
        · rcases h4 : p4Match (epBase filename).data with _ | n4
          · simp only [h1, h2, h3, h4] at h
            rw [← findall12_eq_nil_iff]
            exact List.getLast?_eq_none_iff.mp h
          · simp only [h1, h2, h3, h4] at h
            cases h
        · simp only [h1, h2, h3] at h
          cases h
      · simp only [h1, h2] at h
        cases h
    · simp only [h1] at h
      cases h
  · intro h
    simp only [extract_episode_number]
    rw [seSearch_none _ h, x12Search_none _ h none, p3Search_none _ h, p4Match_none _ h,
      (findall12_eq_nil_iff _).mpr h]
    rfl

/-! ## Season inference (C9) -/

/-- C9: season inference always yields an integer at least 1.
`extract_season_number_from_folder` returns the first matching pattern's value
floored at 1 — pattern (a) `season<digits>`, then (b) `S<1-2 digits>`, then
(c) the last digit run — and returns 1 when no pattern matches; and
`guess_season_from_files` returns `none` when no file base name matches the
`SxxEyy` pattern, and any number it returns is at least 1. -/
theorem season_inference_at_least_one :
    (∀ path, 1 ≤ extract_season_number_from_folder path) ∧
    (∀ path n, seasonASearch (pyBasename path).data = some n →
      extract_season_number_from_folder path = max 1 n) ∧
    (∀ path n, seasonASearch (pyBasename path).data = none →
      sSearch12 (pyBasename path).data = some n →
      extract_season_number_from_folder path = max 1 n) ∧
    (∀ path n, seasonASearch (pyBasename path).data = none →
      sSearch12 (pyBasename path).data = none →
      (findallRuns (pyBasename path).data).getLast? = some n →
      extract_season_number_from_folder path = max 1 n) ∧
    (∀ path, seasonASearch (pyBasename path).data = none →
      sSearch12 (pyBasename path).data = none →
      (findallRuns (pyBasename path).data).getLast? = none →
      extract_season_number_from_folder path = 1) ∧
    (∀ paths n, guess_season_from_files paths = some n → 1 ≤ n) ∧
    (∀ paths, (∀ p ∈ paths, seSearch (epBase p).data = none) →
      guess_season_from_files paths = none) := by
  have hguess : ∀ paths n, guess_season_from_files paths = some n → 1 ≤ n := by
    intro paths
    induction paths with
    | nil => intro n h; cases h
    | cons p rest ih =>
      intro n h
      have hdef : guess_season_from_files (p :: rest) =
          (match seSearch (epBase p).data with
           | some se => some (max 1 se.1)
           | none => guess_season_from_files rest) := rfl
      rw [hdef] at h
      rcases hse : seSearch (epBase p).data with _ | se
      · rw [hse] at h
        exact ih n h
      · rw [hse] at h
        cases h
        exact Nat.le_max_left 1 se.1
  refine ⟨?_, ?_, ?_, ?_, ?_, hguess, ?_⟩
  · intro path
    simp only [extract_season_number_from_folder]
    rcases h1 : seasonASearch (pyBasename path).data with _ | n1
    · rcases h2 : sSearch12 (pyBasename path).data with _ | n2
      · rcases h3 : (findallRuns (pyBasename path).data).getLast? with _ | n3
        · simp only [h1, h2, h3]
          exact Nat.le_refl 1
        · simp only [h1, h2, h3]
          exact Nat.le_max_left 1 n3
      · simp only [h1, h2]
        exact Nat.le_max_left 1 n2
    · simp only [h1]
      exact Nat.le_max_left 1 n1
  · intro path n h1
    simp only [extract_season_number_from_folder, h1]
  · intro path n h1 h2
    simp only [extract_season_number_from_folder, h1, h2]
  · intro path n h1 h2 h3
    simp only [extract_season_number_from_folder, h1, h2, h3]
  · intro path h1 h2 h3
    simp only [extract_season_number_from_folder, h1, h2, h3]
  · intro paths
    induction paths with
    | nil => intro _; rfl
    | cons p rest ih =>
      intro hall
      have hdef : guess_season_from_files (p :: rest) =
          (match seSearch (epBase p).data with
           | some se => some (max 1 se.1)
           | none => guess_season_from_files rest) := rfl
      rw [hdef, hall p (List.mem_cons_self _ _)]
      exact ih (fun q hq => hall q (List.mem_cons_of_mem _ hq))

/-- Witness for C9 at concrete inputs, discharging the hypotheses of the
cascade conjuncts. -/
theorem season_inference_at_least_one_witness :
    1 ≤ extract_season_number_from_folder "South Park Season 10" ∧
    extract_season_number_from_folder "South Park Season 10" = max 1 10 ∧
    extract_season_number_from_folder "Sx2" = max 1 2 ∧
    extract_season_number_from_folder "abc" = 1 ∧
    1 ≤ 3 ∧
    guess_season_from_files ["x.mkv"] = none :=
  ⟨season_inference_at_least_one.1 "South Park Season 10",
   season_inference_at_least_one.2.1 "South Park Season 10" 10 (by decide),
   season_inference_at_least_one.2.2.2.1 "Sx2" 2 (by decide) (by decide) (by decide),
   season_inference_at_least_one.2.2.2.2.1 "abc" (by decide) (by decide) (by decide),
   season_inference_at_least_one.2.2.2.2.2.1 ["a.S03E01.mkv"] 3 (by decide),
   season_inference_at_least_one.2.2.2.2.2.2 ["x.mkv"] (by decide)⟩

/-! ## The validation cascade (C1) -/

theorem unparsedOf_eq_nil_iff (paths : List String) :
    unparsedOf paths = [] ↔ ∀ p ∈ paths, extract_episode_number p ≠ none := by
  unfold unparsedOf
  rw [List.map_eq_nil_iff, List.filter_eq_nil_iff]
  constructor
  · intro h p hp hc
    exact h p hp (by simp [hc])
  · intro h p hp hc
    exact h p hp (Option.isNone_iff_eq_none.mp (by simpa using hc))

theorem itemsOf_length (paths : List String)
    (h : ∀ p ∈ paths, extract_episode_number p ≠ none) :
    (itemsOf paths).length = paths.length := by
  induction paths with
  | nil => rfl
  | cons p rest ih =>
    rcases he : extract_episode_number p with _ | e
    · exact absurd he (h p (List.mem_cons_self _ _))
    · have := ih (fun q hq => h q (List.mem_cons_of_mem _ hq))
      simpa [itemsOf, List.filterMap_cons, he] using this

theorem numsOf_ne_nil (paths : List String) (hne : paths ≠ [])
    (h : ∀ p ∈ paths, extract_episode_number p ≠ none) : numsOf paths ≠ [] := by
  intro hcon
  have hlen := congrArg List.length hcon
  rw [numsOf, List.length_map, itemsOf_length paths h] at hlen
  exact hne (List.length_eq_zero.mp hlen)

theorem insertionSort_nat_eq_nil_iff (l : List Nat) :
    List.insertionSort (· ≤ ·) l = [] ↔ l = [] := by
  constructor
  · intro h
    have hp := List.perm_insertionSort (· ≤ ·) l
    rw [h] at hp
    exact hp.symm.eq_nil
  · intro h; rw [h]; rfl

theorem sortNat_sorted_lt (l : List Nat) (h : l.Nodup) :
    List.Pairwise (· < ·) (List.insertionSort (· ≤ ·) l) := by
  have hs := List.sorted_insertionSort (· ≤ ·) l
  have hn : (List.insertionSort (· ≤ ·) l).Nodup :=
    (List.perm_insertionSort (· ≤ ·) l).nodup_iff.mpr h
  exact (hs.and hn).imp (fun hab => Nat.lt_of_le_of_ne hab.1 hab.2)

theorem mem_dupsList_iff (nums : List Nat) (n : Nat) :
    n ∈ List.insertionSort (· ≤ ·) (nums.dedup.filter (fun m => 2 ≤ nums.count m)) ↔
      2 ≤ nums.count n := by
  rw [(List.perm_insertionSort _ _).mem_iff, List.mem_filter, List.mem_dedup]
  constructor
  · rintro ⟨_, h2⟩
    exact of_decide_eq_true h2
  · intro h2
    refine ⟨List.count_pos_iff.mp (by omega), decide_eq_true h2⟩

theorem dupsList_eq_nil (nums : List Nat) (h : ∀ n, nums.count n ≤ 1) :
    List.insertionSort (· ≤ ·) (nums.dedup.filter (fun m => 2 ≤ nums.count m)) = [] := by
  rw [insertionSort_nat_eq_nil_iff, List.filter_eq_nil_iff]
  intro a _
  have := h a
  simp only [decide_eq_true_eq]
  omega

theorem getLastD_mem_cons (rest : List Nat) (f : Nat) : rest.getLastD f ∈ f :: rest := by
  induction rest generalizing f with
  | nil => simp [List.getLastD]
  | cons y ys ih =>
    rw [List.getLastD_cons]
    exact List.mem_cons_of_mem f (ih y)

theorem le_getLastD_sorted (rest : List Nat) (f : Nat)
    (h : List.Pairwise (· ≤ ·) (f :: rest)) :
    ∀ x ∈ f :: rest, x ≤ rest.getLastD f := by
  induction rest generalizing f with
  | nil =>
    intro x hx
    rcases List.mem_singleton.mp hx with rfl
    simp [List.getLastD]
  | cons y ys ih =>
    intro x hx
    rw [List.getLastD_cons]
    have hpair := List.pairwise_cons.mp h
    rcases List.mem_cons.mp hx with rfl | hx2
    · exact hpair.1 _ (getLastD_mem_cons ys y)
    · exact ih y hpair.2 x hx2

/-- C1 (amended to nonempty batches): for every nonempty list of video file
paths, `build_and_verify_episodes` follows the validation cascade: any failed
extraction yields the unparsed-files error naming every failing file (in input
order) and preempts all further checks; otherwise a repeated episode number
yields the duplicate error listing exactly the sorted distinct duplicated
values; otherwise an absent integer between two extracted values yields the
missing error listing exactly the sorted absent integers of the min-max range;
otherwise the result is `ok` with the items sorted ascending by episode
number.  (On the empty list the code instead raises an uncaught `IndexError`;
see the counterexample.) -/
theorem build_and_verify_episodes_cascade (paths : List String) (hne : paths ≠ []) :
    ((∃ p ∈ paths, extract_episode_number p = none) →
      build_and_verify_episodes paths =
        .err (unparsedMsg
          ((paths.filter (fun p => (extract_episode_number p).isNone)).map pyBasename))) ∧
    ((∀ p ∈ paths, extract_episode_number p ≠ none) →
      ((∃ n, 2 ≤ (numsOf paths).count n) →
        ∃ d, List.Pairwise (· < ·) d ∧ (∀ n, n ∈ d ↔ 2 ≤ (numsOf paths).count n) ∧
          build_and_verify_episodes paths = .err (dupMsg d)) ∧
      ((∀ n, (numsOf paths).count n ≤ 1) →
        ((∃ a ∈ numsOf paths, ∃ b ∈ numsOf paths, ∃ k, a ≤ k ∧ k ≤ b ∧ k ∉ numsOf paths) →
          ∃ m, List.Pairwise (· < ·) m ∧
            (∀ k, k ∈ m ↔
              ((∃ a ∈ numsOf paths, a ≤ k) ∧ (∃ b ∈ numsOf paths, k ≤ b) ∧
                k ∉ numsOf paths)) ∧
            build_and_verify_episodes paths = .err (missingMsg m)) ∧
        ((∀ a ∈ numsOf paths, ∀ b ∈ numsOf paths, ∀ k, a ≤ k → k ≤ b → k ∈ numsOf paths) →
          ∃ s, List.Perm s (itemsOf paths) ∧ List.Pairwise (fun x y => x.1 ≤ y.1) s ∧
            build_and_verify_episodes paths = .ok s))) := by
  constructor
  · rintro ⟨p, hp, hnone⟩
    have hu : unparsedOf paths ≠ [] := by
      intro hcon
      exact ((unparsedOf_eq_nil_iff paths).mp hcon p hp) hnone
    simp only [build_and_verify_episodes]
    rw [if_pos hu]
    rfl
  · intro hall
    have hu : unparsedOf paths = [] := (unparsedOf_eq_nil_iff paths).mpr hall
    have hnums : numsOf paths ≠ [] := numsOf_ne_nil paths hne hall
    constructor
    · rintro ⟨n0, hn0⟩
      refine ⟨List.insertionSort (· ≤ ·)
        ((numsOf paths).dedup.filter (fun m => 2 ≤ (numsOf paths).count m)), ?_, ?_, ?_⟩
      · exact sortNat_sorted_lt _ ((List.nodup_dedup _).filter _)
      · exact fun n => mem_dupsList_iff _ n
      · have hdne : List.insertionSort (· ≤ ·)
            ((numsOf paths).dedup.filter (fun m => 2 ≤ (numsOf paths).count m)) ≠ [] := by
          intro hcon
          have hmem := (mem_dupsList_iff (numsOf paths) n0).mpr hn0
          rw [hcon] at hmem
          cases hmem
        simp only [build_and_verify_episodes]
        rw [if_neg (by simp [hu]), if_pos hdne]
    · intro hcnt
      have hdups_nil := dupsList_eq_nil (numsOf paths) hcnt
      have hdedup_ne : (numsOf paths).dedup ≠ [] := by
        intro hcon
        exact hnums ((List.dedup_eq_nil _).mp hcon)
      rcases hsort : List.insertionSort (· ≤ ·) (numsOf paths).dedup with _ | ⟨f, rest⟩
      · exact absurd ((insertionSort_nat_eq_nil_iff _).mp hsort) hdedup_ne
      have hsorted : List.Pairwise (· ≤ ·) (f :: rest) := by
        have hs := List.sorted_insertionSort (· ≤ ·) (numsOf paths).dedup
        rw [hsort] at hs
        exact hs
      have hmem_iff : ∀ x, x ∈ f :: rest ↔ x ∈ numsOf paths := by
        intro x
        rw [← hsort, (List.perm_insertionSort _ _).mem_iff, List.mem_dedup]
      have hfmin : ∀ x ∈ numsOf paths, f ≤ x := by
        intro x hx
        rcases List.mem_cons.mp ((hmem_iff x).mpr hx) with rfl | h2
        · exact Nat.le_refl x
        · exact (List.pairwise_cons.mp hsorted).1 x h2
      have hlmax : ∀ x ∈ numsOf paths, x ≤ rest.getLastD f :=
        fun x hx => le_getLastD_sorted rest f hsorted x ((hmem_iff x).mpr hx)
      have hfmem : f ∈ numsOf paths := (hmem_iff f).mp (List.mem_cons_self _ _)
      have hlmem : rest.getLastD f ∈ numsOf paths := (hmem_iff _).mp (getLastD_mem_cons rest f)
      have hmiss_iff : ∀ k,
          k ∈ (List.range' f (rest.getLastD f + 1 - f)).filter
              (fun k => (numsOf paths).count k = 0) ↔
            (f ≤ k ∧ k ≤ rest.getLastD f ∧ k ∉ numsOf paths) := by
        intro k
        have hfl : f ≤ rest.getLastD f := hlmax f hfmem
        rw [List.mem_filter, List.mem_range'_1]
        constructor
        · rintro ⟨⟨h1, h2⟩, h3⟩
          exact ⟨h1, by omega, List.count_eq_zero.mp (of_decide_eq_true h3)⟩
        · rintro ⟨h1, h2, h3⟩
          exact ⟨⟨h1, by omega⟩, decide_eq_true (List.count_eq_zero.mpr h3)⟩
      constructor
      · rintro ⟨a, ha, b, hb, k, hak, hkb, hknot⟩
        refine ⟨(List.range' f (rest.getLastD f + 1 - f)).filter
          (fun k => (numsOf paths).count k = 0), ?_, ?_, ?_⟩
        · exact (List.pairwise_lt_range' _ _).filter _
        · intro k0
          rw [hmiss_iff k0]
          constructor
          · rintro ⟨h1, h2, h3⟩
            exact ⟨⟨f, hfmem, h1⟩, ⟨rest.getLastD f, hlmem, h2⟩, h3⟩
          · rintro ⟨⟨a0, ha0, hak0⟩, ⟨b0, hb0, hk0b⟩, h3⟩
            exact ⟨Nat.le_trans (hfmin a0 ha0) hak0, Nat.le_trans hk0b (hlmax b0 hb0), h3⟩
        · have hmne : (List.range' f (rest.getLastD f + 1 - f)).filter
              (fun k => (numsOf paths).count k = 0) ≠ [] := by
            intro hcon
            have hkin := (hmiss_iff k).mpr
              ⟨Nat.le_trans (hfmin a ha) hak, Nat.le_trans hkb (hlmax b hb), hknot⟩
            rw [hcon] at hkin
            cases hkin
          simp only [build_and_verify_episodes]
          rw [if_neg (by simp [hu]), if_neg (by simp [hdups_nil])]
          simp only [hsort]
          rw [if_pos hmne]
      · intro hclosed
        have hmiss_nil : (List.range' f (rest.getLastD f + 1 - f)).filter
            (fun k => (numsOf paths).count k = 0) = [] := by
          rw [List.filter_eq_nil_iff]
          intro k hk
          rw [List.mem_range'_1] at hk
          have hkmem : k ∈ numsOf paths :=
            hclosed f hfmem (rest.getLastD f) hlmem k hk.1 (by omega)
          simp only [decide_eq_true_eq]
          intro hc
          exact (List.count_eq_zero.mp hc) hkmem
        refine ⟨List.insertionSort fstLe (itemsOf paths), List.perm_insertionSort _ _, ?_, ?_⟩
        · exact (List.sorted_insertionSort fstLe (itemsOf paths)).imp (fun h => h)
        · simp only [build_and_verify_episodes]
          rw [if_neg (by simp [hu]), if_neg (by simp [hdups_nil])]
          simp only [hsort]
          rw [if_neg (by rw [hmiss_nil]; simp)]

/-- C1 counterexample at the empty batch: the Python function reaches
`sorted_nums[0]` (line 215) with an empty list and raises an uncaught
`IndexError` (modelled `exn`) instead of returning a validation result, so the
cascade claim fails for the empty list of paths. -/
theorem build_and_verify_episodes_empty_cex :
    build_and_verify_episodes [] = BVOut.exn ∧ BVOut.exn ≠ BVOut.ok [] := by decide

/-- Witness for the amended C1 theorem: a concrete one-file batch whose file
has no digits takes the unparsed-files branch. -/
theorem build_and_verify_episodes_cascade_witness :
    build_and_verify_episodes ["nodigits.mkv"] =
      .err (unparsedMsg ((["nodigits.mkv"].filter
        (fun p => (extract_episode_number p).isNone)).map pyBasename)) :=
  (build_and_verify_episodes_cascade ["nodigits.mkv"] (by decide)).1 (by decide)

/-! ## Multi-season orchestration (C2) -/

theorem bv_ne_exn (paths : List String) (hne : paths ≠ []) :
    build_and_verify_episodes paths ≠ BVOut.exn := by
  simp only [build_and_verify_episodes]
  by_cases hu : unparsedOf paths ≠ []
  · rw [if_pos hu]
    intro h; cases h
  · rw [if_neg hu]
    have hall := (unparsedOf_eq_nil_iff paths).mp (not_ne_iff.mp hu)
    have hnums : numsOf paths ≠ [] := numsOf_ne_nil paths hne hall
    have hdedup_ne : (numsOf paths).dedup ≠ [] := by
      intro hcon
      exact hnums ((List.dedup_eq_nil _).mp hcon)
    split
    · intro h; cases h
    · rcases hsort : List.insertionSort (· ≤ ·) (numsOf paths).dedup with _ | ⟨f, rest⟩
      · exact absurd ((insertionSort_nat_eq_nil_iff _).mp hsort) hdedup_ne
      simp only [hsort]
      split
      · intro h; cases h
      · intro h; cases h

theorem bv_ok_items (paths : List String) (l : List (Nat × String))
    (h : build_and_verify_episodes paths = .ok l) :
    List.Perm l (itemsOf paths) ∧ (∀ p ∈ paths, extract_episode_number p ≠ none) := by
  simp only [build_and_verify_episodes] at h
  by_cases hu : unparsedOf paths ≠ []
  · rw [if_pos hu] at h; cases h
  · rw [if_neg hu] at h
    have hall := (unparsedOf_eq_nil_iff paths).mp (not_ne_iff.mp hu)
    refine ⟨?_, hall⟩
    split at h
    · cases h
    · rcases hsort : List.insertionSort (· ≤ ·) (numsOf paths).dedup with _ | ⟨f, rest⟩
      · simp only [hsort] at h; cases h
      · simp only [hsort] at h
        split at h
        · cases h
        · cases h
          exact List.perm_insertionSort fstLe (itemsOf paths)

theorem bv_ok_ne_nil (paths : List String) (hne : paths ≠ []) (l : List (Nat × String))
    (h : build_and_verify_episodes paths = .ok l) : l ≠ [] := by
  rcases bv_ok_items paths l h with ⟨hperm, hall⟩
  intro hcon
  subst hcon
  have hlen := hperm.length_eq
  rw [itemsOf_length paths hall] at hlen
  exact hne (List.length_eq_zero.mp hlen.symm)

theorem multiLoop_ok_of_nonempty (folders : List (String × List String))
    (h : ∀ fdr ∈ folders, fdr.2 ≠ []) :
    ∃ its errs, multiLoop folders = .ok (its, errs) := by
  induction folders with
  | nil => exact ⟨[], [], rfl⟩
  | cons fdr rest ih =>
    rcases fdr with ⟨sf, vids⟩
    rcases ih (fun q hq => h q (List.mem_cons_of_mem _ hq)) with ⟨its, errs, hrest⟩
    have hdef : multiLoop ((sf, vids) :: rest) =
        (let season := seasonFor sf vids
         match build_and_verify_episodes vids with
         | .exn => .error ()
         | .err e =>
           match multiLoop rest with
           | .error u => .error u
           | .ok (its, errs) =>
             .ok (its, ("[" ++ pyBasename sf ++ " (Season " ++ pad2 season ++ ")]\n" ++ e)
               :: errs)
         | .ok items =>
           match multiLoop rest with
           | .error u => .error u
           | .ok (its, errs) =>
             .ok (items.map (fun it => (season, it.1, it.2)) ++ its, errs)) := rfl
    rw [hdef]
    rcases hbv : build_and_verify_episodes vids with items | e
    · simp only [hbv, hrest]
      exact ⟨_, _, rfl⟩
    · simp only [hbv, hrest]
      exact ⟨_, _, rfl⟩
    · exact absurd hbv (bv_ne_exn vids (h (sf, vids) (List.mem_cons_self _ _)))

theorem multiLoop_all_ok (folders : List (String × List String))
    (h : ∀ fdr ∈ folders, isOkB (build_and_verify_episodes fdr.2) = true) :
    multiLoop folders = .ok
      (folders.flatMap (fun fdr => (okItems (build_and_verify_episodes fdr.2)).map
        (fun it => (seasonFor fdr.1 fdr.2, it.1, it.2))), []) := by
  induction folders with
  | nil => rfl
  | cons fdr rest ih =>
    rcases fdr with ⟨sf, vids⟩
    have hok := h (sf, vids) (List.mem_cons_self _ _)
    rcases hbv : build_and_verify_episodes vids with items | e
    · have hdef : multiLoop ((sf, vids) :: rest) =
          (match build_and_verify_episodes vids with
           | .exn => .error ()
           | .err e =>
             match multiLoop rest with
             | .error u => .error u
             | .ok (its, errs) =>
               .ok (its, ("[" ++ pyBasename sf ++ " (Season " ++ pad2 (seasonFor sf vids)
                 ++ ")]\n" ++ e) :: errs)
           | .ok items =>
             match multiLoop rest with
             | .error u => .error u
             | .ok (its, errs) =>
               .ok (items.map (fun it => (seasonFor sf vids, it.1, it.2)) ++ its, errs)) := rfl
      rw [hdef, hbv, ih (fun q hq => h q (List.mem_cons_of_mem _ hq))]
      simp only [List.flatMap_cons, hbv, okItems]
    · rw [hbv] at hok
      cases hok
    · rw [hbv] at hok
      cases hok

theorem multiLoop_some_err (folders : List (String × List String))
    (hvids : ∀ fdr ∈ folders, fdr.2 ≠ [])
    (hsome : ∃ fdr ∈ folders, isErrB (build_and_verify_episodes fdr.2) = true) :
    ∃ its errs, multiLoop folders = .ok (its, errs) ∧ errs ≠ [] := by
  induction folders with
  | nil => rcases hsome with ⟨_, h, _⟩; cases h
  | cons fdr rest ih =>
    rcases fdr with ⟨sf, vids⟩
    have hdef : multiLoop ((sf, vids) :: rest) =
        (match build_and_verify_episodes vids with
         | .exn => .error ()
         | .err e =>
           match multiLoop rest with
           | .error u => .error u
           | .ok (its, errs) =>
             .ok (its, ("[" ++ pyBasename sf ++ " (Season " ++ pad2 (seasonFor sf vids)
               ++ ")]\n" ++ e) :: errs)
         | .ok items =>
           match multiLoop rest with
           | .error u => .error u
           | .ok (its, errs) =>
             .ok (items.map (fun it => (seasonFor sf vids, it.1, it.2)) ++ its, errs)) := rfl
    rcases hbv : build_and_verify_episodes vids with items | e
    · rcases hsome with ⟨fdr0, hfdr0, herr0⟩
      rcases List.mem_cons.mp hfdr0 with rfl | hrest0
      · rw [hbv] at herr0; cases herr0
      · rcases ih (fun q hq => hvids q (List.mem_cons_of_mem _ hq)) ⟨fdr0, hrest0, herr0⟩
          with ⟨its, errs, hloop, hne⟩
        rw [hdef, hbv, hloop]
        exact ⟨_, errs, rfl, hne⟩
    · rcases multiLoop_ok_of_nonempty rest (fun q hq => hvids q (List.mem_cons_of_mem _ hq))
        with ⟨its, errs, hloop⟩
      rw [hdef, hbv, hloop]
      exact ⟨its, _, rfl, by simp⟩
    · exact absurd hbv (bv_ne_exn vids (hvids (sf, vids) (List.mem_cons_self _ _)))

/-- C2: in a multi-season run over the discovered season subfolders (each with
a nonempty video batch), if at least one batch fails validation then the
orchestrator exposes no plan at all — `multi_items` is `none`, so zero plan
items even from subfolders whose batches validated — and renaming is
disabled; only when every batch validates is the full aggregated,
season-tagged plan produced with renaming enabled. -/
theorem multi_season_all_or_nothing (folders : List (String × List String))
    (hvids : ∀ fdr ∈ folders, fdr.2 ≠ []) :
    ((∃ fdr ∈ folders, isErrB (build_and_verify_episodes fdr.2) = true) →
      ∃ errs, errs ≠ [] ∧
        build_multi_tv_preview folders = some ⟨none, errs, false⟩) ∧
    ((∀ fdr ∈ folders, isOkB (build_and_verify_episodes fdr.2) = true) →
      folders ≠ [] →
      ∃ plan, plan ≠ [] ∧
        plan = folders.flatMap (fun fdr =>
          (okItems (build_and_verify_episodes fdr.2)).map
            (fun it => (seasonFor fdr.1 fdr.2, it.1, it.2))) ∧
        build_multi_tv_preview folders = some ⟨some plan, [], true⟩) := by
  constructor
  · intro hsome
    rcases multiLoop_some_err folders hvids hsome with ⟨its, errs, hloop, hne⟩
    refine ⟨errs, hne, ?_⟩
    simp only [build_multi_tv_preview, hloop]
    rw [if_pos hne]
  · intro hok hne
    have hloop := multiLoop_all_ok folders hok
    have hplan_ne : folders.flatMap (fun fdr =>
        (okItems (build_and_verify_episodes fdr.2)).map
          (fun it => (seasonFor fdr.1 fdr.2, it.1, it.2))) ≠ [] := by
      rcases folders with _ | ⟨⟨sf, vids⟩, rest⟩
      · exact absurd rfl hne
      · have hokh := hok (sf, vids) (List.mem_cons_self _ _)
        rcases hbv : build_and_verify_episodes vids with items | e
        · have hitems : items ≠ [] :=
            bv_ok_ne_nil vids (hvids (sf, vids) (List.mem_cons_self _ _)) items hbv
          simp only [List.flatMap_cons, hbv, okItems]
          intro hcon
          rcases List.append_eq_nil.mp hcon with ⟨hmap, _⟩
          exact hitems (List.map_eq_nil_iff.mp hmap)
        · rw [hbv] at hokh; cases hokh
        · rw [hbv] at hokh; cases hokh
    refine ⟨_, hplan_ne, rfl, ?_⟩
    simp only [build_multi_tv_preview, hloop]
    rw [if_neg (by simp), if_neg hplan_ne]

/-- Witness for C2 at a concrete single-season input whose batch validates. -/
theorem multi_season_all_or_nothing_witness :
    (∀ fdr ∈ ([("Season 1", ["a.S01E01.mkv"])] : List (String × List String)), fdr.2 ≠ []) ∧
    (∃ plan, plan ≠ [] ∧
      plan = ([("Season 1", ["a.S01E01.mkv"])] : List (String × List String)).flatMap
        (fun fdr => (okItems (build_and_verify_episodes fdr.2)).map
          (fun it => (seasonFor fdr.1 fdr.2, it.1, it.2))) ∧
      build_multi_tv_preview [("Season 1", ["a.S01E01.mkv"])] =
        some ⟨some plan, [], true⟩) :=
  ⟨by decide,
   (multi_season_all_or_nothing [("Season 1", ["a.S01E01.mkv"])] (by decide)).2
     (by decide) (by decide)⟩

/-! ## Collision-free rename targets (C3) and identity skipping (C8) -/

theorem natVal_append_digit (l : List Char) (c : Char) :
    natVal (l ++ [c]) = 10 * natVal l + (c.toNat - '0'.toNat) := by
  unfold natVal
  rw [List.foldl_append]
  rfl

theorem natVal_pyNatAux (fuel : Nat) : ∀ n, n ≤ fuel → natVal (pyNatAux fuel n) = n := by
  induction fuel with
  | zero =>
    intro n h
    have hn : n = 0 := by omega
    subst hn
    rfl
  | succ fl ih =>
    intro n h
    by_cases hn : n = 0
    · subst hn
      simp [pyNatAux, natVal]
    · have hdef : pyNatAux (fl + 1) n = pyNatAux fl (n / 10) ++ [Nat.digitChar (n % 10)] := by
        simp [pyNatAux, hn]
      have hdiv : n / 10 < n := Nat.div_lt_self (by omega) (by norm_num)
      rw [hdef, natVal_append_digit, ih (n / 10) (by omega)]
      have hlt : n % 10 < 10 := Nat.mod_lt n (by omega)
      have hchar : (Nat.digitChar (n % 10)).toNat - '0'.toNat = n % 10 := by
        have hall : ∀ d, d < 10 → (Nat.digitChar d).toNat - '0'.toNat = d := by decide
        exact hall _ hlt
      rw [hchar]
      omega

theorem pyNat_pos_inj (a b : Nat) (ha : 0 < a) (hb : 0 < b) (h : pyNat a = pyNat b) :
    a = b := by
  unfold pyNat at h
  rw [if_neg (by omega), if_neg (by omega)] at h
  have hdata : pyNatAux (a + 1) a = pyNatAux (b + 1) b := congrArg String.data h
  have hval := congrArg natVal hdata
  rwa [natVal_pyNatAux _ a (by omega), natVal_pyNatAux _ b (by omega)] at hval

theorem pyNat_length_pos (n : Nat) : 0 < (pyNat n).length := by
  by_cases hn : n = 0
  · subst hn; decide
  · unfold pyNat
    rw [if_neg hn]
    have hdef : pyNatAux (n + 1) n = pyNatAux n (n / 10) ++ [Nat.digitChar (n % 10)] := by
      simp [pyNatAux, hn]
    show 0 < (pyNatAux (n + 1) n).length
    rw [hdef]
    simp

theorem suffixed_ne_base (stem e : String) (k : Nat) :
    stem ++ "_" ++ pyNat k ++ e ≠ stem ++ e := by
  intro h
  have hlen := congrArg String.length h
  rw [String.length_append, String.length_append, String.length_append,
    String.length_append] at hlen
  have hpos := pyNat_length_pos k
  have hu : ("_" : String).length = 1 := rfl
  omega

theorem suffixed_inj (stem e : String) (j k : Nat) (hj : 0 < j) (hk : 0 < k)
    (h : stem ++ "_" ++ pyNat j ++ e = stem ++ "_" ++ pyNat k ++ e) : j = k := by
  apply pyNat_pos_inj j k hj hk
  have hd := congrArg String.data h
  rw [String.data_append, String.data_append, String.data_append,
    String.data_append, String.data_append, String.data_append] at hd
  have h1 := List.append_cancel_right hd
  have h2 := List.append_cancel_left h1
  exact String.ext h2

theorem collisionLoop_eq_find (fs : List String) (mk : Nat → String) :
    ∀ fuel cand k,
      collisionLoop fs mk (fuel + 1) cand k =
        (cand :: (List.range' k fuel).map mk).find? (fun c => decide (c ∉ fs)) := by
  intro fuel
  induction fuel with
  | zero =>
    intro cand k
    by_cases hc : cand ∈ fs
    · rw [show collisionLoop fs mk 1 cand k = collisionLoop fs mk 0 (mk k) (k + 1) from by
        simp [collisionLoop, hc]]
      rw [List.find?_cons_of_neg _ (by simp [hc])]
      rfl
    · rw [show collisionLoop fs mk 1 cand k = some cand from by simp [collisionLoop, hc]]
      rw [List.find?_cons_of_pos _ (by simp [hc])]
  | succ fl ih =>
    intro cand k
    by_cases hc : cand ∈ fs
    · rw [show collisionLoop fs mk (fl + 1 + 1) cand k =
          collisionLoop fs mk (fl + 1) (mk k) (k + 1) from by simp [collisionLoop, hc]]
      rw [ih (mk k) (k + 1)]
      rw [show List.range' k (fl + 1) = k :: List.range' (k + 1) fl from rfl]
      rw [List.map_cons]
      exact (List.find?_cons_of_neg _ (by simp [hc])).symm
    · rw [show collisionLoop fs mk (fl + 1 + 1) cand k = some cand from by
        simp [collisionLoop, hc]]
      rw [List.find?_cons_of_pos _ (by simp [hc])]

theorem collisionLoop_finds_free (fs : List String) (stem e : String) :
    ∃ c, collisionLoop fs (fun k => stem ++ "_" ++ pyNat k ++ e)
        (fs.length + 1) (stem ++ e) 1 = some c ∧ c ∉ fs := by
  have hfind := collisionLoop_eq_find fs (fun k => stem ++ "_" ++ pyNat k ++ e)
    fs.length (stem ++ e) 1
  have hnd : ((stem ++ e) :: (List.range' 1 fs.length).map
      (fun k => stem ++ "_" ++ pyNat k ++ e)).Nodup := by
    rw [List.nodup_cons]
    constructor
    · intro hmem
      rcases List.mem_map.mp hmem with ⟨k, _, hk⟩
      exact suffixed_ne_base stem e k hk
    · have hrnd : (List.range' 1 fs.length).Nodup :=
        (List.pairwise_lt_range' 1 fs.length).imp Nat.ne_of_lt
      refine hrnd.map_on ?_
      intro j hj k hk hjk
      have hj1 : 1 ≤ j := (List.mem_range'_1.mp hj).1
      have hk1 : 1 ≤ k := (List.mem_range'_1.mp hk).1
      exact suffixed_inj stem e j k (by omega) (by omega) hjk
  rcases hf : ((stem ++ e) :: (List.range' 1 fs.length).map
      (fun k => stem ++ "_" ++ pyNat k ++ e)).find? (fun c => decide (c ∉ fs)) with _ | c
  · exfalso
    have hall := List.find?_eq_none.mp hf
    have hsub : ((stem ++ e) :: (List.range' 1 fs.length).map
        (fun k => stem ++ "_" ++ pyNat k ++ e)) ⊆ fs := by
      intro x hx
      have := hall x hx
      simpa using this
    have hle := (hnd.subperm hsub).length_le
    simp at hle
  · have hp := List.find?_some hf
    exact ⟨c, hfind.trans hf, of_decide_eq_true hp⟩

theorem joinPath_append (d x y : String) : joinPath d (x ++ y) = joinPath d x ++ y := by
  unfold joinPath
  by_cases hd : d = ""
  · rw [if_pos hd, if_pos hd]
  · rw [if_neg hd, if_neg hd]
    by_cases hl : d.data.getLast? = some '/'
    · rw [if_pos hl, if_pos hl]
      exact (String.append_assoc d x y).symm
    · rw [if_neg hl, if_neg hl]
      exact (String.append_assoc (d ++ "/") x y).symm

theorem targetOf_join (showName seasonStr : String) (ep : Nat) (old : String) :
    targetOf showName seasonStr ep old =
      joinPath (dirnameOf old) (nameStemOf showName seasonStr ep) ++ extOf old := by
  unfold targetOf
  rw [joinPath_append]

theorem renameStep_mk_eq (showName seasonStr : String) (ep : Nat) (old : String) :
    (fun k => joinPath (dirnameOf old)
        (nameStemOf showName seasonStr ep ++ "_" ++ pyNat k ++ extOf old)) =
      (fun k => joinPath (dirnameOf old) (nameStemOf showName seasonStr ep)
        ++ "_" ++ pyNat k ++ extOf old) := by
  funext k
  rw [joinPath_append, joinPath_append, joinPath_append]

/-- C3: for every rename the engine executes, the chosen target does not exist
at the moment of the rename: any executed rename's target is absent from the
file-system snapshot `fs` consulted by the existence check, and whenever the
computed target differs from the source the `_1`, `_2`, ... suffix-retry loop
does find a free name (within `fs.length + 1` probes, by pigeonhole on the
pairwise-distinct candidate names), so the engine never deletes or overwrites
an existing file. -/
theorem rename_target_free (fs : List String) (showName seasonStr : String) (ep : Nat)
    (old : String) :
    (∀ fs2 src tgt, renameStep fs showName seasonStr ep old = (fs2, some (src, tgt)) →
      src = old ∧ tgt ∉ fs) ∧
    (old ≠ targetOf showName seasonStr ep old →
      ∃ tgt, renameStep fs showName seasonStr ep old =
        (tgt :: fs.erase old, some (old, tgt)) ∧ tgt ∉ fs) := by
  rcases collisionLoop_finds_free fs
      (joinPath (dirnameOf old) (nameStemOf showName seasonStr ep)) (extOf old)
    with ⟨c, hc, hcnot⟩
  have hloop : collisionLoop fs
      (fun k => joinPath (dirnameOf old)
        (nameStemOf showName seasonStr ep ++ "_" ++ pyNat k ++ extOf old))
      (fs.length + 1) (targetOf showName seasonStr ep old) 1 = some c := by
    rw [renameStep_mk_eq, targetOf_join]
    exact hc
  constructor
  · intro fs2 src tgt h
    simp only [renameStep] at h
    by_cases hid : old = targetOf showName seasonStr ep old
    · rw [if_pos hid] at h
      simp at h
    · rw [if_neg hid] at h
      simp only [hloop] at h
      have h1 : c :: fs.erase old = fs2 := congrArg Prod.fst h
      have h2 : (some (old, c) : Option (String × String)) = some (src, tgt) :=
        congrArg Prod.snd h
      simp only [Option.some.injEq, Prod.mk.injEq] at h2
      refine ⟨h2.1.symm, ?_⟩
      rw [← h2.2]
      exact hcnot
  · intro hid
    refine ⟨c, ?_, hcnot⟩
    simp only [renameStep]
    rw [if_neg hid]
    simp only [hloop]

/-- Witness for C3: a concrete non-identity rename whose plain target already
exists, forcing one round of the suffix-retry loop. -/
theorem rename_target_free_witness :
    ("a.mkv" : String) ≠ targetOf "Show" "01" 2 "a.mkv" ∧
    (∃ tgt, renameStep ["Show.s01.e02.mkv"] "Show" "01" 2 "a.mkv" =
      (tgt :: (["Show.s01.e02.mkv"].erase "a.mkv"), some ("a.mkv", tgt)) ∧
      tgt ∉ (["Show.s01.e02.mkv"] : List String)) :=
  ⟨by decide, (rename_target_free ["Show.s01.e02.mkv"] "Show" "01" 2 "a.mkv").2 (by decide)⟩

theorem renameStep_identity (fs : List String) (showName seasonStr : String) (ep : Nat)
    (old : String) (hid : old = targetOf showName seasonStr ep old) :
    renameStep fs showName seasonStr ep old = (fs, none) := by
  simp only [renameStep]
  rw [if_pos hid]

/-- C8: over a whole batch, identity renames (computed target equal to the
source path) are skipped — they produce no rename, and every other item is
still processed in order: the sources of the executed renames are exactly the
non-identity items, and the reported renamed-count equals the number of
executed renames, i.e. the number of non-identity items. -/
theorem rename_identity_skipped (fs : List String) (showName seasonStr : String)
    (items : List (Nat × String)) :
    ((rename_files_tv fs showName seasonStr items).2.1).map Prod.fst =
      (items.filter (fun it => it.2 ≠ targetOf showName seasonStr it.1 it.2)).map Prod.snd ∧
    (rename_files_tv fs showName seasonStr items).2.2 =
      ((rename_files_tv fs showName seasonStr items).2.1).length ∧
    (rename_files_tv fs showName seasonStr items).2.2 =
      (items.filter (fun it => it.2 ≠ targetOf showName seasonStr it.1 it.2)).length := by
  induction items generalizing fs with
  | nil => exact ⟨rfl, rfl, rfl⟩
  | cons it rest ih =>
    rcases it with ⟨ep, old⟩
    have hdef : rename_files_tv fs showName seasonStr ((ep, old) :: rest) =
        (let step := renameStep fs showName seasonStr ep old
         match step.2 with
         | none =>
           let r := rename_files_tv step.1 showName seasonStr rest
           (r.1, r.2.1, r.2.2)
         | some rn =>
           let r := rename_files_tv step.1 showName seasonStr rest
           (r.1, rn :: r.2.1, r.2.2 + 1)) := rfl
    by_cases hid : old = targetOf showName seasonStr ep old
    · have hstep := renameStep_identity fs showName seasonStr ep old hid
      rw [hdef]
      simp only [hstep]
      have hfilter : ((ep, old) :: rest).filter
          (fun it => it.2 ≠ targetOf showName seasonStr it.1 it.2) =
          rest.filter (fun it => it.2 ≠ targetOf showName seasonStr it.1 it.2) := by
        rw [List.filter_cons_of_neg]
        simp only [decide_eq_true_eq]
        exact not_not_intro hid
      rw [hfilter]
      exact ih fs
    · rcases (rename_target_free fs showName seasonStr ep old).2 hid with ⟨tgt, hstep, _⟩
      rw [hdef]
      simp only [hstep]
      have hfilter : ((ep, old) :: rest).filter
          (fun it => it.2 ≠ targetOf showName seasonStr it.1 it.2) =
          (ep, old) :: rest.filter (fun it => it.2 ≠ targetOf showName seasonStr it.1 it.2) := by
        rw [List.filter_cons_of_pos]
        exact decide_eq_true hid
      rw [hfilter]
      rcases ih (tgt :: fs.erase old) with ⟨ih1, ih2, ih3⟩
      refine ⟨?_, ?_, ?_⟩
      · simp only [List.map_cons]
        rw [ih1]
      · simp only [List.length_cons]
        rw [ih2]
      · simp only [List.length_cons]
        rw [ih3]
